import Mathlib

/-!
# Verification of the NeTS graph engine (`src/network.ts`, `src/vertex.ts`)

Shallow embedding of the TypeScript sources.  JS `Map`s are modelled as
insertion-ordered association lists (`Map.set` on an existing key updates the
value in place, keeping its position; `Map.delete` removes the entry;
iteration follows insertion order).  JS numbers are modelled as exact
rationals; where the code can produce `NaN`/`Infinity` (the clustering
quotients) we use the `JSNum` type below.  Methods that can `throw` return
`Except NetErr _`; methods that mutate `this` additionally return the updated
`Network` state.
-/
deriving instance DecidableEq for Except

namespace NeTS

/-- `base_id` from `enums.ts`: a string or a number (JS `===` never equates a
string with a number, matching the disjoint sum). -/
inductive BaseId
  | num (n : Int)
  | str (s : String)
  deriving DecidableEq, Repr

instance : ToString BaseId := ⟨fun b => match b with
  | .num n => toString n
  | .str s => s⟩

/-- `Vertex` from `vertex.ts`: readonly id plus a mutable weight. -/
structure Vertex where
  id : BaseId
  weight : ℚ
  deriving DecidableEq, Repr

/-- `Edge` from `edge.ts` (private `from`/`to` plus mutable weight).
`from` is a Lean keyword, hence the field name `from'`. -/
structure Edge where
  from' : BaseId
  to' : BaseId
  weight : ℚ
  deriving DecidableEq, Repr

/-- `VertexArgs` from `enums.ts`. -/
structure VertexArgs where
  id : BaseId
  weight : Option ℚ := none
  deriving DecidableEq, Repr

/-- `EdgeArgs` from `enums.ts`. -/
structure EdgeArgs where
  from' : BaseId
  to' : BaseId
  id : Option BaseId := none
  weight : Option ℚ := none
  do_force : Option Bool := none
  deriving DecidableEq, Repr

/-- `NetworkArgs` from `enums.ts`. -/
structure NetworkArgs where
  is_directed : Option Bool := none
  is_multigraph : Option Bool := none
  edge_limit : Option Nat := none
  vertex_limit : Option Nat := none
  deriving DecidableEq, Repr

/-- The distinct error kinds thrown by the engine (the `ERROR` table of
`enums.ts`); `TYPE_ERROR` models a JS runtime `TypeError` (property access on
`undefined`), and `FUEL` marks exhaustion of the fuel used to model the
source's unbounded loops (never reached with adequate fuel). -/
inductive NetErr
  | EDGE_LIMIT
  | VERTICE_LIMIT
  | EXISTING_EDGE
  | EXISTING_VERTICE
  | INEXISTENT_VERTICE (v : BaseId)
  | SELF_LOOP
  | INEXISTENT_START_VERTICE (v : BaseId)
  | INEXISTENT_END_VERTICE (v : BaseId)
  | TYPE_ERROR
  | FUEL
  deriving DecidableEq, Repr

/-! Rational arithmetic used throughout the embedding.  The library's
`Rat.add`/`Rat.mul`/`Rat.div` are `@[irreducible]`, which blocks kernel
evaluation of concrete runs; the functions below compute the same exact
values through `mkRat`. -/

/-- Exact rational addition. -/
def qAdd (a b : ℚ) : ℚ := mkRat (a.num * b.den + b.num * a.den) (a.den * b.den)

/-- Exact rational multiplication. -/
def qMul (a b : ℚ) : ℚ := mkRat (a.num * b.num) (a.den * b.den)

/-- Exact rational division (callers handle the zero divisor beforehand). -/
def qDiv (a b : ℚ) : ℚ :=
  if b.num < 0 then mkRat (-(a.num * b.den)) (a.den * b.num.natAbs)
  else mkRat (a.num * b.den) (a.den * b.num.natAbs)

/-- Exact rational strict comparison `a < b`. -/
def qlt (a b : ℚ) : Bool := a.num * (b.den : Int) < b.num * (a.den : Int)

/-- A natural number as a rational. -/
def natQ (n : Nat) : ℚ := mkRat (Int.ofNat n) 1

/-- JS numbers restricted to the values produced by the engine's divisions:
exact rationals plus `NaN` and the two infinities (floating-point rounding is
not modelled). -/
inductive JSNum
  | nan
  | posinf
  | neginf
  | fin (q : ℚ)
  deriving DecidableEq, Repr

def jsAdd : JSNum → JSNum → JSNum
  | .nan, _ => .nan
  | _, .nan => .nan
  | .posinf, .neginf => .nan
  | .neginf, .posinf => .nan
  | .posinf, _ => .posinf
  | _, .posinf => .posinf
  | .neginf, _ => .neginf
  | _, .neginf => .neginf
  | .fin a, .fin b => .fin (qAdd a b)

def jsMul : JSNum → JSNum → JSNum
  | .nan, _ => .nan
  | _, .nan => .nan
  | .posinf, .posinf => .posinf
  | .posinf, .neginf => .neginf
  | .neginf, .posinf => .neginf
  | .neginf, .neginf => .posinf
  | .posinf, .fin b =>
      if qlt 0 b then .posinf else if qlt b 0 then .neginf else .nan
  | .fin a, .posinf =>
      if qlt 0 a then .posinf else if qlt a 0 then .neginf else .nan
  | .neginf, .fin b =>
      if qlt 0 b then .neginf else if qlt b 0 then .posinf else .nan
  | .fin a, .neginf =>
      if qlt 0 a then .neginf else if qlt a 0 then .posinf else .nan
  | .fin a, .fin b => .fin (qMul a b)

def jsDiv : JSNum → JSNum → JSNum
  | .nan, _ => .nan
  | _, .nan => .nan
  | .posinf, .posinf => .nan
  | .posinf, .neginf => .nan
  | .neginf, .posinf => .nan
  | .neginf, .neginf => .nan
  | .posinf, .fin b => if qlt b 0 then .neginf else .posinf
  | .neginf, .fin b => if qlt b 0 then .posinf else .neginf
  | .fin _, .posinf => .fin 0
  | .fin _, .neginf => .fin 0
  | .fin a, .fin b =>
      if b.num = 0 then
        (if a.num = 0 then .nan else if qlt 0 a then .posinf else .neginf)
      else .fin (qDiv a b)

/-- JS `a / b` on two nonnegative counts. -/
def jsDivNat (a b : Nat) : JSNum := jsDiv (.fin (natQ a)) (.fin (natQ b))

/-! ## JS `Map` model: insertion-ordered association lists -/
abbrev JMap (β : Type) := List (BaseId × β)

def mapHas {β : Type} (m : JMap β) (k : BaseId) : Bool :=
  m.any (fun p => p.1 == k)

def mapGet {β : Type} (m : JMap β) (k : BaseId) : Option β :=
  (m.find? (fun p => p.1 == k)).map Prod.snd

/-- JS `Map.set`: overwrite in place if the key exists (keeping its insertion
position), else append. -/
def mapSet {β : Type} (m : JMap β) (k : BaseId) (v : β) : JMap β :=
  if mapHas m k then m.map (fun p => if p.1 == k then (k, v) else p)
  else m ++ [(k, v)]

def mapDelete {β : Type} (m : JMap β) (k : BaseId) : JMap β :=
  m.filter (fun p => ¬(p.1 == k))

def mapKeys {β : Type} (m : JMap β) : List BaseId := m.map Prod.fst

/-! ## The `Network` state (fields of the `Network` class) -/

/-- The mutable state of a `Network` instance.  `predecessor` is the public
field filled by `dijkstra`; `neighbors_cached`/`neighbors_cache` are
`_neighbors_cached`/`_neighbors` (the cache stores, per vertex id, pairs of
(neighbor vertex id, edge weight) – the source stores a reference to the
neighbor `Vertex` object, modelled here by its id since vertex objects are
identified by their id in the vertices map). -/
structure Network where
  edges : JMap Edge
  vertices : JMap Vertex
  is_directed : Bool
  is_multigraph : Bool
  edge_limit : Nat
  vertex_limit : Nat
  free_eid : Nat
  free_vid : Nat
  predecessor : JMap (Option BaseId)
  neighbors_cached : Bool
  neighbors_cache : JMap (List (BaseId × ℚ))
  deriving DecidableEq, Repr

/-- The `Network` constructor: note that `is_multigraph` is set to `false`
unconditionally, ignoring `args.is_multigraph`. -/
def mkNetwork (args : NetworkArgs) : Network where
  edges := []
  vertices := []
  is_directed := args.is_directed.getD false
  vertex_limit := args.vertex_limit.getD 1500
  edge_limit := args.edge_limit.getD 2500
  free_eid := 0
  free_vid := 0
  is_multigraph := false
  predecessor := []
  neighbors_cached := false
  neighbors_cache := []

/-- The `args` getter. -/
def netArgs (net : Network) : NetworkArgs where
  is_directed := some net.is_directed
  is_multigraph := some net.is_multigraph
  edge_limit := some net.edge_limit
  vertex_limit := some net.vertex_limit

def vertex_list (net : Network) : List Vertex := net.vertices.map Prod.snd

def edge_list (net : Network) : List Edge := net.edges.map Prod.snd

/-- `Edge.args` getter: `{from, to, weight}` (the id is not part of it). -/
def Edge.args (e : Edge) : EdgeArgs where
  from' := e.from'
  to' := e.to'
  weight := some e.weight

/-- `Edge.pairVertex`. -/
def pairVertex (e : Edge) (vertex_id : BaseId) : Option BaseId :=
  if vertex_id = e.to' then some e.from'
  else if vertex_id = e.from' then some e.to'
  else none

/-- `Edge.hasVertex`. -/
def edgeHasVertex (e : Edge) (vertex_id : BaseId) : Bool :=
  e.from' == vertex_id || e.to' == vertex_id

/-- `checkEdgeIsSame` (the caller supplies the `is_directed` default). -/
def checkEdgeIsSame (a : BaseId × BaseId) (b : BaseId × BaseId)
    (is_directed : Bool) : Bool :=
  if a.1 == b.1 && a.2 == b.2 then true
  else if a.2 == b.1 && a.1 == b.2 && !is_directed then true
  else false

/-- `hasEdge(from, to, is_directed = false)` – callers that omit the third
argument must pass `false` here (notably `addEdge`'s duplicate check does). -/
def hasEdge (net : Network) (from' to' : BaseId) (is_directed : Bool) : Bool :=
  (edge_list net).any fun e => checkEdgeIsSame (e.from', e.to') (from', to') is_directed

/-- `edgeBetween(from, to, is_directed = this.is_directed)`; all call sites
pass defined ids, so the `undefined` guard of the source is dropped. -/
def edgeBetween (net : Network) (from' to' : BaseId) (is_directed : Bool) :
    Option Edge :=
  (edge_list net).find? fun e => checkEdgeIsSame (e.from', e.to') (from', to') is_directed

def hasVertex (net : Network) (id : BaseId) : Bool := mapHas net.vertices id

/-- `newEID`: take the counter value; the source probes random ids until it
finds a free one when the counter value is taken – that nondeterministic probe
is modelled as the smallest free numeric id (observationally an arbitrary
free id). -/
def newEID (net : Network) : Nat × Network :=
  let id := net.free_eid
  let net' := { net with free_eid := net.free_eid + 1 }
  if mapHas net'.edges (.num id) then
    let free := (List.range (net'.edges.length + 1)).find?
      (fun n : Nat => !mapHas net'.edges (.num (n : Int)))
    (free.getD 0, net')
  else (id, net')

/-- `addVertex`: the limit check (`size + 1 >= vertex_limit`) precedes the
duplicate check; `args.id !== undefined` always holds in the typed model. -/
def addVertex (net : Network) (args : VertexArgs) :
    Network × Except NetErr Nat :=
  if net.vertices.length + 1 ≥ net.vertex_limit then
    (net, .error .VERTICE_LIMIT)
  else if mapHas net.vertices args.id then
    (net, .error .EXISTING_VERTICE)
  else
    let net' := { net with
      neighbors_cached := false
      vertices := mapSet net.vertices args.id ⟨args.id, args.weight.getD 1⟩ }
    (net', .ok net'.vertices.length)

/-- Tail of `addEdge` after the id/self-loop/limit/vertex handling: the
non-multigraph duplicate check uses `hasEdge(from, to)` whose `is_directed`
parameter defaults to `false` (undirected), then the edge is inserted. -/
def addEdgeFinish (net : Network) (from' to' : BaseId) (id : BaseId)
    (weight : ℚ) : Network × Except NetErr Bool :=
  if !net.is_multigraph && hasEdge net from' to' false then
    (net, .ok false)
  else
    let net' := { net with
      neighbors_cached := false
      edges := mapSet net.edges id ⟨from', to', weight⟩ }
    (net', .ok true)

/-- Body of `addEdge` once the edge id has been resolved
(`args.id ??= this.newEID()`), mirroring the source's order of checks and
mutations. -/
def addEdgeResolved (net : Network) (args : EdgeArgs) (id : BaseId) :
    Network × Except NetErr Bool :=
  let do_force := args.do_force.getD true
  let weight := args.weight.getD 1
  if mapHas net.edges id then (net, .error .EXISTING_EDGE)
  else if args.from' = args.to' then (net, .error .SELF_LOOP)
  else if net.edges.length ≥ net.edge_limit then (net, .error .EDGE_LIMIT)
  else if !do_force then
    if ¬ mapHas net.vertices args.from' then
      (net, .error (.INEXISTENT_VERTICE args.from'))
    else if ¬ mapHas net.vertices args.to' then
      (net, .error (.INEXISTENT_VERTICE args.to'))
    else addEdgeFinish net args.from' args.to' id weight
  else
    let net := { net with neighbors_cached := false }
    let (net, r1) :=
      if ¬ mapHas net.vertices args.from' then addVertex net { id := args.from' }
      else (net, .ok 0)
    match r1 with
    | .error e => (net, .error e)
    | .ok _ =>
      let (net, r2) :=
        if ¬ mapHas net.vertices args.to' then addVertex net { id := args.to' }
        else (net, .ok 0)
      match r2 with
      | .error e => (net, .error e)
      | .ok _ => addEdgeFinish net args.from' args.to' id weight

/-- `addEdge`: resolve the id (`args.id ??= this.newEID()` advances
`free_eid` even when the call later throws or no-ops), then run the body. -/
def addEdge (net : Network) (args : EdgeArgs) : Network × Except NetErr Bool :=
  match args.id with
  | some i => addEdgeResolved net args i
  | none =>
    let r := newEID net
    addEdgeResolved r.2 args (BaseId.num (r.1 : Int))

/-- `removeVertex`: delete the vertex, then cascade-delete incident edges. -/
def removeVertex (net : Network) (id : BaseId) :
    Network × Except NetErr Unit :=
  if ¬ mapHas net.vertices id then
    (net, .error (.INEXISTENT_VERTICE id))
  else
    let net' := { net with
      neighbors_cached := false
      vertices := mapDelete net.vertices id }
    let net' := { net' with
      edges := net'.edges.filter
        (fun p => ¬(p.2.from' == id || p.2.to' == id)) }
    (net', .ok ())

/-- `neighbors`: note the `else if`, an edge contributes one entry. -/
def neighbors (net : Network) (id : BaseId) : List BaseId :=
  net.edges.foldl (fun acc p =>
    if p.2.from' == id then acc ++ [p.2.to']
    else if p.2.to' == id then acc ++ [p.2.from'] else acc) []

def degree (net : Network) (id : BaseId) : Nat :=
  net.edges.foldl (fun acc p =>
    if p.2.from' == id || p.2.to' == id then acc + 1 else acc) 0

def edgesFrom (net : Network) (vertex_id : BaseId) (except : List BaseId) :
    List Edge :=
  (edge_list net).filter fun e =>
    e.from' == vertex_id && !except.contains e.to'

def edgesWith (net : Network) (vertex_id : BaseId) : List Edge :=
  (edge_list net).filter fun e =>
    e.from' == vertex_id || e.to' == vertex_id

/-- `max_edges` getter: `|V|·(|V|−1)/2` (exact on naturals, as in JS). -/
def maxEdges (net : Network) : Nat :=
  net.vertices.length * (net.vertices.length - 1) / 2

/-- `density` getter (`|E| / max_edges`, a JS division). -/
def density (net : Network) : JSNum := jsDivNat net.edges.length (maxEdges net)

/-- `genus` getter: `|E| − |V| + 1` over the integers. -/
def genus (net : Network) : Int :=
  (net.edges.length : Int) - (net.vertices.length : Int) + 1

/-- `addVertexMap`: single up-front limit check, then each entry is stored
under its **map key**; it does not invalidate the neighbor cache. -/
def addVertexMap (net : Network) (vertex_map : JMap Vertex) :
    Network × Except NetErr Nat :=
  if net.vertices.length + vertex_map.length ≥ net.vertex_limit then
    (net, .error .VERTICE_LIMIT)
  else
    let res := vertex_map.foldl
      (fun (acc : Network × Nat) p =>
        ({ acc.1 with vertices := mapSet acc.1.vertices p.1 p.2 }, acc.2 + 1))
      (net, 0)
    (res.1, .ok res.2)

/-- `addVertexList`: the `forEach((vertex_args, id) => …)` callback receives
the **array index** as `id`, so the vertex is stored under the numeric index
key, not under its own id. -/
def addVertexList (net : Network) (vl : List VertexArgs) :
    Network × Except NetErr Nat :=
  if net.vertices.length + vl.length ≥ net.vertex_limit then
    (net, .error .VERTICE_LIMIT)
  else
    let res := vl.foldl
      (fun (acc : Network × Nat × Nat) va =>
        let v' := mapSet acc.1.vertices (BaseId.num (acc.2.2 : Int))
          ⟨va.id, va.weight.getD 1⟩
        ({ acc.1 with vertices := v' }, acc.2.1 + 1, acc.2.2 + 1))
      (net, 0, 0)
    (res.1, .ok res.2.1)

/-- One step of `addEdgeMap`'s `forEach`: add the edge via
`addEdge(edge.args)` unless an earlier iteration already threw. -/
def aemStep (acc : Network × Except NetErr Unit) (p : BaseId × Edge) :
    Network × Except NetErr Unit :=
  match acc.2 with
  | .error e => (acc.1, .error e)
  | .ok _ =>
    match addEdge acc.1 (Edge.args p.2) with
    | (net', .error e) => (net', .error e)
    | (net', .ok _) => (net', .ok ())

/-- `addEdgeMap`: add each edge of the map via `addEdge(edge.args)` (a thrown
error aborts the iteration, as a JS exception aborts `forEach`). -/
def addEdgeMap (net : Network) (edge_map : JMap Edge) :
    Network × Except NetErr Unit :=
  edge_map.foldl aemStep (net, .ok ())

/-- `addEdgeList`: a zero third component is falsy in JS, so a weight of `0`
is dropped and the default weight 1 applies. -/
def addEdgeList (net : Network) (el : List (BaseId × BaseId × Option ℚ)) :
    Network × Except NetErr Unit :=
  let step := fun (acc : Network × Except NetErr Unit)
      (e : BaseId × BaseId × Option ℚ) =>
    match acc.2 with
    | .error err => (acc.1, .error err)
    | .ok _ =>
      let args : EdgeArgs :=
        match e.2.2 with
        | some w => if w ≠ 0 then { from' := e.1, to' := e.2.1, weight := some w }
                    else { from' := e.1, to' := e.2.1 }
        | none => { from' := e.1, to' := e.2.1 }
      let (net', r) := addEdge acc.1 args
      match r with
      | .error err => (net', .error err)
      | .ok _ => (net', .ok ())
  el.foldl step (net, .ok ())

/-- `copy`: a fresh network from `this.args`, then `addEdgeMap(this.edges)`,
then `addVertexMap(this.vertices)`. -/
def copy (net : Network) : Except NetErr Network :=
  let c := mkNetwork (netArgs net)
  match addEdgeMap c net.edges with
  | (_, .error e) => .error e
  | (c, .ok _) =>
    match addVertexMap c net.vertices with
    | (_, .error e) => .error e
    | (c, .ok _) => .ok c

/-- First `ego` pass: add every edge incident to `id` (via `addEdge` with
only `from`/`to`, so weight 1 and forced vertex creation). -/
def egoStep1 (id : BaseId) (acc : Network × Except NetErr Unit)
    (p : BaseId × Edge) : Network × Except NetErr Unit :=
  match acc.2 with
  | .error e => (acc.1, .error e)
  | .ok _ =>
    if p.2.from' == id || p.2.to' == id then
      match addEdge acc.1 { from' := p.2.from', to' := p.2.to' } with
      | (net', .error e) => (net', .error e)
      | (net', .ok _) => (net', .ok ())
    else (acc.1, .ok ())

/-- Second `ego` pass: add every edge whose two endpoints are already in
the ego network. -/
def egoStep2 (acc : Network × Except NetErr Unit)
    (p : BaseId × Edge) : Network × Except NetErr Unit :=
  match acc.2 with
  | .error e => (acc.1, .error e)
  | .ok _ =>
    if mapHas acc.1.vertices p.2.from' && mapHas acc.1.vertices p.2.to' then
      match addEdge acc.1 { from' := p.2.from', to' := p.2.to' } with
      | (net', .error e) => (net', .error e)
      | (net', .ok _) => (net', .ok ())
    else (acc.1, .ok ())

/-- `ego`: edges incident to `id`, then edges between vertices already in the
ego network. -/
def ego (net : Network) (id : BaseId) : Except NetErr Network :=
  let c := mkNetwork (netArgs net)
  match net.edges.foldl (egoStep1 id) (c, .ok ()) with
  | (_, .error e) => .error e
  | (c, .ok _) =>
    match net.edges.foldl egoStep2 (c, .ok ()) with
    | (_, .error e) => .error e
    | (c, .ok _) => .ok c

/-- `clustering`: build the ego network, drop the center, and return
`directed_const * (existing_edges / max_edges)` as a JS number. -/
def clustering (net : Network) (id : BaseId) : Except NetErr JSNum :=
  match ego net id with
  | .error e => .error e
  | .ok ego_net =>
    if ego_net.vertices.length ≤ 1 then .ok (.fin 0)
    else
      match removeVertex ego_net id with
      | (_, .error e) => .error e
      | (centerless, .ok _) =>
        let me := maxEdges centerless
        let existing := centerless.edges.length
        let directed_const : ℚ := if net.is_directed then 2 else 1
        .ok (jsMul (.fin directed_const) (jsDivNat existing me))

/-- The per-vertex clustering values of `averageClustering`'s `map` (a
thrown error aborts the whole call). -/
def clusterVals (net : Network) : List Vertex → Except NetErr (List JSNum)
  | [] => .ok []
  | v :: rest =>
    match clustering net v.id with
    | .error e => .error e
    | .ok c =>
      match clusterVals net rest with
      | .error e => .error e
      | .ok cs => .ok (c :: cs)

/-- `averageClustering`: mean of the per-vertex clustering values (the JS
`reduce` runs on a nonempty list since `|V| ≥ 2` past the first test). -/
def averageClustering (net : Network) : Except NetErr JSNum :=
  if net.vertices.length ≤ 1 then .ok (.fin 0)
  else
    match clusterVals net (vertex_list net) with
    | .error e => .error e
    | .ok cs =>
      let sum := match cs with
        | [] => JSNum.nan
        | c :: rest => rest.foldl jsAdd c
      .ok (jsDiv sum (.fin (natQ net.vertices.length)))

/-! ## k-core -/

/-- The inner `for` sweep of `core`.  On a removal the source assigns
`vertex_counter = 0`, which the `for` increment immediately bumps to 1, so
the scan resumes at index 1 (index 0 is skipped).  The loop bound is the
captured `vertex_list`, re-captured on each removal; the element is re-read
from the live list – both coincide since the graph only changes on removal.
`fuel` dominates the loop's step count. -/
def coreScan (k : Int) : Network → Nat → Nat → Network
  | d, _, 0 => d
  | d, counter, fuel+1 =>
    let vl := vertex_list d
    if h : counter < vl.length then
      let current := vl.get ⟨counter, h⟩
      if (degree d current.id : Int) < k then
        coreScan k (removeVertex d current.id).1 1 fuel
      else coreScan k d (counter + 1) fuel
    else d

/-- The outer `while (k > 0 && …)` loop of `core`; the threshold `k`
decreases by one per sweep, so `k.toNat + 1` iterations always suffice. -/
def coreLoop : Network → Int → Nat → Network
  | d, _, 0 => d
  | d, k, fuel+1 =>
    if k > 0 ∧ d.vertices.length > 0 then
      coreLoop (coreScan k d 0 ((d.vertices.length + 1) * (d.vertices.length + 2)))
        (k - 1) fuel
    else d

/-- `core(k)`: peel a `copy()` of the graph (the copy may throw, see
`copy`). -/
def core (net : Network) (k : Int) : Except NetErr Network :=
  match copy net with
  | .error e => .error e
  | .ok d => .ok (coreLoop d k (k.toNat + 1))

/-! ## The `Cycle` subclass -/

/-- Constructor arguments of `Cycle`. -/
structure CycleArgs where
  is_directed : Bool
  initial_edge : EdgeArgs
  loop_vertex : Option BaseId := none
  deriving DecidableEq, Repr

/-- `Cycle extends Network`: the inherited state plus the cycle fields
(`dynamic_product` is a `JSNum` because the source divides by edge weights). -/
structure Cycle where
  net : Network
  loop_vertex : BaseId
  tip_vertex : BaseId
  is_closed : Bool
  dynamic_product : JSNum
  deriving DecidableEq, Repr

/-- `updateProduct`: multiply by the weight when the tip is the edge's `to`
end, else multiply by `1 / weight`. -/
def cycleUpdateProduct (c : Cycle) (edge : EdgeArgs) : Cycle :=
  let weight : ℚ := edge.weight.getD 1
  { c with dynamic_product :=
      if c.tip_vertex == edge.to' then jsMul c.dynamic_product (.fin weight)
      else jsMul c.dynamic_product (jsDiv (.fin 1) (.fin weight)) }

/-- The `Cycle` constructor: `super(args)` followed by adding the initial
edge and orienting loop/tip. -/
def mkCycle (args : CycleArgs) : Except NetErr Cycle :=
  let net := mkNetwork { is_directed := some args.is_directed }
  match addEdge net args.initial_edge with
  | (_, .error e) => .error e
  | (net, .ok _) =>
    let lv := args.initial_edge.from'
    let tv := args.initial_edge.to'
    let lt :=
      match args.loop_vertex with
      | some l =>
        if !args.is_directed && hasVertex net l then
          match (edge_list net).head? with
          | some e0 =>
            match pairVertex e0 l with
            | some p => (l, p)
            | none => (lv, tv)   -- unreachable: l is an endpoint of e0
          | none => (lv, tv)     -- unreachable: the initial edge was added
        else (lv, tv)
      | none => (lv, tv)
    let c : Cycle :=
      { net, loop_vertex := lt.1, tip_vertex := lt.2,
        is_closed := false, dynamic_product := .fin 1 }
    .ok (cycleUpdateProduct c args.initial_edge)

/-- `canAdd`: the edge must extend from the tip to an unvisited vertex. -/
def cycleCanAdd (c : Cycle) (edge : EdgeArgs) : Bool :=
  let creates_loop :=
    (edge.from' == c.tip_vertex && !hasVertex c.net edge.to') ||
    (!c.net.is_directed && edge.to' == c.tip_vertex && !hasVertex c.net edge.from')
  !c.is_closed && creates_loop

/-- `canCloseWith`: the edge must join the tip back to the loop vertex and
the cycle must already have more than 2 vertices. -/
def cycleCanCloseWith (c : Cycle) (edge : EdgeArgs) : Bool :=
  let edge_has_tip_and_loop :=
    (edge.from' == c.tip_vertex && edge.to' == c.loop_vertex) ||
    (!c.net.is_directed && edge.to' == c.tip_vertex && edge.from' == c.loop_vertex)
  !c.is_closed && edge_has_tip_and_loop && decide (c.net.vertices.length > 2)

/-- `Cycle.addEdge` (overrides `Network.addEdge`; callers pass the possibly
`undefined` result of `edgeBetween(..)?.args`). -/
def cycleAddEdge (c : Cycle) (edge : Option EdgeArgs) :
    Except NetErr (Cycle × Bool) :=
  match edge with
  | none => .ok (c, false)
  | some e =>
    if cycleCanAdd c e then
      match addEdge c.net e with
      | (_, .error err) => .error err
      | (net, .ok _) =>
        let c := { c with net }
        let c :=
          if !c.net.is_directed && c.tip_vertex == e.to' then
            { c with tip_vertex := e.from' }
          else { c with tip_vertex := e.to' }
        .ok (cycleUpdateProduct c e, true)
    else .ok (c, false)

/-- `Cycle.close`. -/
def cycleClose (c : Cycle) (edge : Option EdgeArgs) :
    Except NetErr (Cycle × Bool) :=
  match edge with
  | none => .ok (c, false)
  | some e =>
    if cycleCanCloseWith c e then
      match addEdge c.net e with
      | (_, .error err) => .error err
      | (net, .ok _) =>
        let c := { c with net, is_closed := true }
        let c := { c with tip_vertex := c.loop_vertex }
        .ok (cycleUpdateProduct c e, true)
    else .ok (c, false)

/-- `Cycle.isSameAs`: every edge of `c` occurs (direction-aware) among the
edges of `other`. -/
def cycleIsSameAs (c other : Cycle) : Bool :=
  if c.net.is_directed != other.net.is_directed then false
  else (edge_list c.net).all fun e =>
    (edge_list other.net).any fun e2 =>
      (e2.from' == e.from' && e2.to' == e.to') ||
      (!c.net.is_directed && e2.from' == e.to' && e2.to' == e.from')

/-! ## Motif enumeration: the two 4-cycle finders -/

/-- Body of the innermost `parallel_edges.forEach` of `quadruplets`. -/
def quadrupletsInner (k2 : Network) (loop_vertex vertex : BaseId)
    (initial_edge : EdgeArgs) (c4 : List Cycle) (p_edge : Edge) :
    Except NetErr (List Cycle) := do
  let cycle ← mkCycle { is_directed := k2.is_directed, initial_edge,
                        loop_vertex := some loop_vertex }
  let (cycle, ok1) ← cycleAddEdge cycle
    ((edgeBetween k2 cycle.tip_vertex vertex k2.is_directed).map Edge.args)
  if ok1 then
    let (cycle, ok2) ← cycleAddEdge cycle (some p_edge.args)
    if ok2 then
      let (cycle, ok3) ← cycleClose cycle
        ((edgeBetween k2 cycle.tip_vertex loop_vertex k2.is_directed).map Edge.args)
      if ok3 then
        if !c4.any (fun c => cycleIsSameAs c cycle) then return c4 ++ [cycle]
        else return c4
      else return c4
    else return c4
  else return c4

/-- `quadruplets()`. -/
def quadruplets (net : Network) : Except NetErr (List Cycle) := do
  let k2 ← core net 2
  k2.edges.foldlM (fun c4 p => do
    let edge1 := p.2
    let initial_edge := edge1.args
    let loop0 := edge1.from'
    let pair0 := match pairVertex edge1 loop0 with
      | some q => q
      | none => loop0   -- dead: `pairVertex` at `from'` yields `to'`
    let pn0 := neighbors k2 pair0
    let swap :=
      if !k2.is_directed then
        let ln0 := neighbors k2 loop0
        if pn0.length > ln0.length then (pair0, ln0) else (loop0, pn0)
      else (loop0, pn0)
    swap.2.foldlM (fun c4 vertex => do
      let parallel_edges := if k2.is_directed then edgesFrom k2 vertex []
                            else edgesWith k2 vertex
      parallel_edges.foldlM
        (fun c4 p_edge => quadrupletsInner k2 swap.1 vertex initial_edge c4 p_edge)
        c4) c4) []

/-- `genSquare`. -/
def genSquare (edge parallel : Edge) (k2 : Network)
    (loop_vertex : Option BaseId) : Except NetErr (Option Cycle) := do
  let is_directed := k2.is_directed
  let initial_edge := edge.args
  let cycle ← mkCycle { is_directed, initial_edge, loop_vertex }
  let (cycle, ok1) ← cycleAddEdge cycle
    ((edgeBetween k2 cycle.tip_vertex parallel.from' k2.is_directed).map Edge.args)
  let cycle ←
    if !ok1 && !is_directed then do
      let (cycle, _) ← cycleAddEdge cycle
        ((edgeBetween k2 cycle.tip_vertex parallel.to' k2.is_directed).map Edge.args)
      pure cycle
    else pure cycle
  let (cycle, _) ← cycleAddEdge cycle (some parallel.args)
  let (cycle, _) ← cycleClose cycle
    ((edgeBetween k2 cycle.tip_vertex cycle.loop_vertex k2.is_directed).map Edge.args)
  if cycle.net.vertices.length == 4 && cycle.is_closed then return some cycle
  else return none

/-- `quadrupletsEdgePairing()`. -/
def quadrupletsEdgePairing (net : Network) : Except NetErr (List Cycle) := do
  let k2 ← core net 2
  let is_directed := k2.is_directed
  k2.edges.foldlM (fun c4 pe => do
    k2.edges.foldlM (fun c4 pp => do
      let square ← genSquare pe.2 pp.2 k2 none
      let c4 := match square with
        | some s => if !c4.any (fun c => cycleIsSameAs c s) then c4 ++ [s] else c4
        | none => c4
      if !is_directed then do
        let squ ← genSquare pe.2 pp.2 k2 (some pe.2.args.to')
        match squ with
        | some s =>
          if !c4.any (fun c => cycleIsSameAs c s) then return c4 ++ [s]
          else return c4
        | none => return c4
      else return c4) c4) []

/-! ## Dijkstra engine -/

/-- JS number-to-string conversion, abstracted as the exact rational's
`toString` (no claim depends on the exact digits). -/
def numToString (q : ℚ) : String := toString q

/-- First half of the per-edge neighborhood scan of
`constructNeighborsCache`: record the `to` end when the edge leaves the
vertex, provided it resolves in the vertices map (the source pushes the
resolved `Vertex` object, modelled by its `id`). -/
def cacheEntryStep1 (vertices : JMap Vertex) (cvid : BaseId)
    (nb : List (BaseId × ℚ)) (pe : BaseId × Edge) : List (BaseId × ℚ) :=
  if pe.2.from' == cvid then
    match mapGet vertices pe.2.to' with
    | some v => nb ++ [(v.id, pe.2.weight)]
    | none => nb
  else nb

/-- Second half: additionally record the `from` end when the edge arrives at
the vertex **and** `oriented` is true. -/
def cacheEntryStep2 (vertices : JMap Vertex) (cvid : BaseId) (oriented : Bool)
    (nb : List (BaseId × ℚ)) (pe : BaseId × Edge) : List (BaseId × ℚ) :=
  if pe.2.to' == cvid && oriented then
    match mapGet vertices pe.2.from' with
    | some v => nb ++ [(v.id, pe.2.weight)]
    | none => nb
  else nb

/-- Per-edge body of the neighborhood scan (the two sequential conditional
pushes of the source). -/
def cacheEntryStep (vertices : JMap Vertex) (cvid : BaseId) (oriented : Bool)
    (nb : List (BaseId × ℚ)) (pe : BaseId × Edge) : List (BaseId × ℚ) :=
  cacheEntryStep2 vertices cvid oriented
    (cacheEntryStep1 vertices cvid nb pe) pe

/-- The neighborhood list computed for one vertex by the cache builder. -/
def cacheEntry (vertices : JMap Vertex) (edges : JMap Edge) (cvid : BaseId)
    (oriented : Bool) : List (BaseId × ℚ) :=
  edges.foldl (cacheEntryStep vertices cvid oriented) []

/-- Per-vertex body of `constructNeighborsCache`. -/
def cncStep (oriented : Bool) (acc : Network) (cv : BaseId × Vertex) :
    Network :=
  { acc with
    neighbors_cache := mapSet acc.neighbors_cache cv.2.id
      (cacheEntry acc.vertices acc.edges cv.2.id oriented)
    neighbors_cached := true }

/-- `constructNeighborsCache(oriented)`: for each vertex, scan all edges and
store its neighborhood in the cache, marking the cache valid. -/
def constructNeighborsCache (net : Network) (oriented : Bool) : Network :=
  net.vertices.foldl (cncStep oriented) net

/-- `edge_neighbors`: build the cache if stale, then look the vertex up
(`none` models the JS crash of iterating an `undefined` entry). -/
def edge_neighbors (net : Network) (id : BaseId) (oriented : Bool) :
    Network × Option (List (BaseId × ℚ)) :=
  let net := if !net.neighbors_cached then constructNeighborsCache net oriented
             else net
  (net, mapGet net.neighbors_cache id)

/-- `Number.MAX_VALUE`, exactly: this literal is `2 ^ 1024 - 2 ^ 971`
(spelled out so that the kernel can evaluate concrete runs). -/
def maxValue : ℚ := mkRat (Int.ofNat 179769313486231570814527423731704356798070567525844996598917476803157260780028538760589558632766878171540458953514382464234321326889464182768467546703537516986049910576551282076245490090389328944075868508455133942304583236903222948165808559332123348274797826204144723168738177180919299881250404026184124858368) 1

/-- `value_a_infini`: reset every vertex weight to `Number.MAX_VALUE`. -/
def value_a_infini (net : Network) : Network :=
  { net with vertices :=
      net.vertices.map (fun p => (p.1, { p.2 with weight := maxValue })) }

/-- `update_distances`: relax `v2` through `v1`; the source receives the two
`Vertex` objects, modelled by their ids (the `none` branches are dead since
both ids come from the vertices map). -/
def update_distances (net : Network) (v1 v2 : BaseId) (d : ℚ) :
    Network × Bool :=
  match mapGet net.vertices v1, mapGet net.vertices v2 with
  | some a, some b =>
    if qlt (qAdd a.weight d) b.weight then
      ({ net with
          vertices := mapSet net.vertices v2 { b with weight := qAdd a.weight d }
          predecessor := mapSet net.predecessor v2 (some v1) }, true)
    else (net, false)
  | _, _ => (net, false)

/-- Pop of the `MinHeap<Vertex>` keyed by the mutable vertex weight, modelled
as removal of a minimal-current-weight element of the pending list. -/
def popMin (net : Network) (q : List BaseId) : Option (BaseId × List BaseId) :=
  match q with
  | [] => none
  | x :: xs =>
    let wOf := fun id => ((mapGet net.vertices id).map Vertex.weight).getD 0
    let best := xs.foldl (fun b y => if qlt (wOf y) (wOf b) then y else b) x
    some (best, (x :: xs).erase best)

/-- Body of the `for (let voisin of voisins)` relaxation loop: relax the
neighbor and, when the distance improved, push it onto the queue. -/
def relaxStep (cur : BaseId) (acc : Network × List BaseId)
    (vo : BaseId × ℚ) : Network × List BaseId :=
  if (update_distances acc.1 cur vo.1 vo.2).2 then
    ((update_distances acc.1 cur vo.1 vo.2).1, acc.2 ++ [vo.1])
  else ((update_distances acc.1 cur vo.1 vo.2).1, acc.2)

/-- The main Dijkstra iteration (`while (queue.size() > 0 && !finish)`;
`finish` never becomes true in the shipped code). -/
def dijkstraLoop : Nat → Network → List BaseId → Except NetErr Network
  | 0, _, _ => .error .FUEL
  | fuel+1, net, queue =>
    match popMin net queue with
    | none => .ok net
    | some (cur, queue) =>
      match edge_neighbors net cur (!net.is_directed) with
      | (_, none) => .error .TYPE_ERROR
      | (net, some voisins) =>
        let s := voisins.foldl (relaxStep cur) (net, queue)
        dijkstraLoop fuel s.1 s.2

/-- The `for (let p of this.vertices)` loop of `getPredecesseurs`.  A vertex
with a `null` predecessor yields `"<id> START"`; one with a recorded
predecessor yields `"<id> <- <pid> (<w>)"` **if** `edgeBetween` (at the
network's own directedness) finds an edge, and is silently skipped
otherwise; a vertex missing from the map altogether crashes (`v.id` on
`undefined`). -/
def getPredecesseursAux (net : Network) (pred : JMap (Option BaseId)) :
    List (BaseId × Vertex) → List String → Except NetErr (List String)
  | [], resu => .ok resu
  | p :: rest, resu =>
    let idx := p.1
    match mapGet pred idx with
    | some none =>
      getPredecesseursAux net pred rest (resu ++ [s!"{idx} START"])
    | some (some vid) =>
      match mapGet net.vertices vid with
      | none => .error .TYPE_ERROR  -- the stored object always resolves here
      | some v =>
        match edgeBetween net idx vid net.is_directed with
        | some e =>
          let w := numToString (qAdd v.weight e.weight)
          getPredecesseursAux net pred rest (resu ++ [s!"{idx} <- {vid} ({w})"])
        | none => getPredecesseursAux net pred rest resu
    | none => .error .TYPE_ERROR    -- JS: `v === null` is false, `v.id` throws

/-- `getPredecesseurs`. -/
def getPredecesseurs (net : Network) (pred : JMap (Option BaseId)) :
    Except NetErr (List String) :=
  getPredecesseursAux net pred net.vertices []

/-- The `do … while` chain walk of `analysePredecesseurs` (fuel-bounded: the
source loops forever on a cyclic predecessor map). -/
def analysePredecesseursLoop (net : Network) (pred : JMap (Option BaseId)) :
    Nat → BaseId → String → Except NetErr String
  | 0, _, _ => .error .FUEL
  | fuel+1, noeud_courant, resu =>
    match mapGet pred noeud_courant with
    | none => .error .TYPE_ERROR    -- `undefined !== null`, then `.id` throws
    | some (some pid) =>
      match mapGet net.vertices pid with
      | none => .error .TYPE_ERROR  -- the stored object always resolves here
      | some pv =>
        let e := edgeBetween net pid noeud_courant net.is_directed
        let e_weight : ℚ := match e with | some ed => ed.weight | none => 0
        let w := numToString (qAdd e_weight pv.weight)
        analysePredecesseursLoop net pred fuel pid (s!" - {noeud_courant} ({w})" ++ resu)
    | some none =>
      .ok (s!"{noeud_courant}" ++ resu)

/-- `analysePredecesseurs`. -/
def analysePredecesseurs (net : Network) (pred : JMap (Option BaseId))
    (noeud_arrivee : BaseId) (fuel : Nat) : Except NetErr String :=
  if ¬ hasVertex net noeud_arrivee then
    .error (.INEXISTENT_VERTICE noeud_arrivee)
  else analysePredecesseursLoop net pred fuel noeud_arrivee ""

/-- `DijkstraResult`. -/
structure DijkstraResult where
  predecessors : List String
  path : String
  deriving DecidableEq, Repr

/-- `dijkstra(start, end)`: returns the result together with the mutated
`Network` state (vertex weights turned into distance labels, `predecessor`
filled, neighbor cache possibly built). -/
def dijkstra (net0 : Network) (start finish : BaseId) (fuel : Nat) :
    Except NetErr (Network × DijkstraResult) :=
  let net := { net0 with predecessor := [] }
  let s_ok := hasVertex net start
  let e_ok := hasVertex net finish
  if !(s_ok && e_ok) then
    if !s_ok then .error (.INEXISTENT_START_VERTICE start)
    else .error (.INEXISTENT_END_VERTICE finish)
  else
    let net := value_a_infini net
    match mapGet net.vertices start with
    | none =>
      -- dead branch of the source ("normally, this cannot happen here")
      .ok (net, { predecessors :=
                    [s!"Start vertex doesn't exist in dijkstra() - {start}"],
                  path := "ERROR path not available in dijsktra()" })
    | some sv =>
      let net := { net with
        vertices := mapSet net.vertices start { sv with weight := 0 } }
      let net := { net with predecessor := mapSet net.predecessor start none }
      match dijkstraLoop fuel net [start] with
      | .error e => .error e
      | .ok net =>
        match getPredecesseurs net net.predecessor with
        | .error e => .error e
        | .ok resu =>
          match analysePredecesseurs net net.predecessor finish fuel with
          | .error e => .error e
          | .ok chemin => .ok (net, { predecessors := resu, path := chemin })

/-! ## Concrete instances and invariant definitions used by the development -/

/-- One directed edge `b → a`. -/
def gC1 : Network :=
  (addEdge (mkNetwork { is_directed := some true })
    { from' := .str "b", to' := .str "a" }).1

/-- `vertex_limit = 4`, vertices `a`, `b`, one edge `a–b`. -/
def gC3 : Network :=
  (addEdge (addVertex (addVertex (mkNetwork { vertex_limit := some 4 })
    { id := .str "a" }).1 { id := .str "b" }).1
    { from' := .str "a", to' := .str "b" }).1

/-- Undirected edges inserted in the order
`(e,a), (a,b), (b,c), (c,d), (d,b)`. -/
def gC4 : Network :=
  (addEdgeList (mkNetwork {})
    [(.str "e", .str "a", none), (.str "a", .str "b", none),
     (.str "b", .str "c", none), (.str "c", .str "d", none),
     (.str "d", .str "b", none)]).1

/-- The network `core gC4 2` returns. -/
def gC4core : Network :=
  match core gC4 2 with
  | .ok c => c
  | .error _ => mkNetwork {}

/-- `vertex_limit = 1`, empty. -/
def gC5 : Network := mkNetwork { vertex_limit := some 1 }

/-- One directed edge `a → b`. -/
def gC6 : Network :=
  (addEdge (mkNetwork { is_directed := some true })
    { from' := .str "a", to' := .str "b" }).1

/-- One directed edge `a → b` (fresh copy for the dijkstra counterexample). -/
def gC7 : Network :=
  (addEdge (mkNetwork { is_directed := some true })
    { from' := .str "a", to' := .str "b" }).1

def dijkC7 : Except NetErr (Network × DijkstraResult) :=
  dijkstra gC7 (.str "a") (.str "b") 10

def stC7 : Network :=
  match dijkC7 with
  | .ok r => r.1
  | .error _ => mkNetwork {}

def resC7 : DijkstraResult :=
  match dijkC7 with
  | .ok r => r.2
  | .error _ => { predecessors := [], path := "" }

/-- `edge_limit = 1`, one edge `a–b`. -/
def gC10 : Network :=
  (addEdge (mkNetwork { edge_limit := some 1 })
    { from' := .str "a", to' := .str "b" }).1

/-- Undirected 4-cycle `a–b–c–d–a`. -/
def gSquare : Network :=
  (addEdgeList (mkNetwork {})
    [(.str "a", .str "b", none), (.str "b", .str "c", none),
     (.str "c", .str "d", none), (.str "d", .str "a", none)]).1

/-- Undirected `K₄`. -/
def gK4 : Network :=
  (addEdgeList (mkNetwork {})
    [(.str "a", .str "b", none), (.str "a", .str "c", none),
     (.str "a", .str "d", none), (.str "b", .str "c", none),
     (.str "b", .str "d", none), (.str "c", .str "d", none)]).1

/-- Some edge of `E` joins `a` and `b` (in either stored orientation). -/
def EdgeConn (E : JMap Edge) (a b : BaseId) : Prop :=
  ∃ p ∈ E, (p.2.from' = a ∧ p.2.to' = b) ∨ (p.2.from' = b ∧ p.2.to' = a)

/-- Invariant carried through the dijkstra main loop on undirected runs:
fixed edges and vertex keys, key-equals-id, every recorded predecessor is
joined to its vertex by some edge, valid cache entries likewise reflect
edges, and the queue only holds known vertices. -/
def dLoopInv (E : JMap Edge) (K : List BaseId) (st : Network)
    (queue : List BaseId) : Prop :=
  st.is_directed = false ∧
  st.edges = E ∧
  mapKeys st.vertices = K ∧
  (∀ p ∈ st.vertices, p.2.id = p.1) ∧
  (∀ id vid, mapGet st.predecessor id = some (some vid) → EdgeConn E id vid) ∧
  (st.neighbors_cached = true →
    ∀ v ∈ K, ∀ l, mapGet st.neighbors_cache v = some l →
      ∀ x ∈ l, EdgeConn E v x.1) ∧
  (∀ q ∈ queue, q ∈ K)

/-- The state set up by `dijkstra` just before entering its main loop:
fresh predecessor map, all weights at infinity except `start` at `0`,
`start` recorded as its own root. -/
def dijkstraInit (g : Network) (start : BaseId) (sv : Vertex) : Network :=
  { value_a_infini { g with predecessor := [] } with
      vertices := mapSet (value_a_infini { g with predecessor := [] }).vertices
        start { sv with weight := 0 },
      predecessor := mapSet (value_a_infini { g with predecessor := [] }).predecessor
        start none }

/-- The tail of `dijkstra` after initialisation: main loop, predecessor
listing, path reconstruction. -/
def dijkstraTail (n3 : Network) (start finish : BaseId) (fuel : Nat) :
    Except NetErr (Network × DijkstraResult) :=
  match dijkstraLoop fuel n3 [start] with
  | .error e => .error e
  | .ok net =>
    match getPredecesseurs net net.predecessor with
    | .error e => .error e
    | .ok resu =>
      match analysePredecesseurs net net.predecessor finish fuel with
      | .error e => .error e
      | .ok chemin => .ok (net, { predecessors := resu, path := chemin })

/-- Undirected edge `a – b` with the cache stale (fresh network). -/
def gC7u : Network :=
  (addEdge (mkNetwork {}) { from' := .str "a", to' := .str "b" }).1

def dijkC7u : Except NetErr (Network × DijkstraResult) :=
  dijkstra gC7u (.str "a") (.str "b") 10

def stC7u : Network :=
  match dijkC7u with
  | .ok r => r.1
  | .error _ => mkNetwork {}

def resC7u : DijkstraResult :=
  match dijkC7u with
  | .ok r => r.2
  | .error _ => { predecessors := [], path := "" }

/-- The `(from, to, weight)` projection of a stored edge: the data `copy`
rebuilds. -/
def edgeTriple (p : BaseId × Edge) : BaseId × BaseId × ℚ :=
  (p.2.from', p.2.to', p.2.weight)

/-- Undirected edge `a – b` (well-formed input for the `copy` witness). -/
def gC3w : Network :=
  (addEdge (mkNetwork {}) { from' := .str "a", to' := .str "b" }).1

def cC3w : Network :=
  match copy gC3w with
  | .ok c => c
  | .error _ => mkNetwork {}

/-- Invariant of the scratch network built by `ego g id`: original limits,
duplicate-free keys that all stem from endpoints of incident edges, the
center present once anything is, and stored edges that are pairwise
distinct no-self-loop pairs of present endpoints matching edges of `g`. -/
def egoInv (g : Network) (id : BaseId) (acc : Network) : Prop :=
  acc.is_multigraph = false ∧
  acc.edge_limit = g.edge_limit ∧
  acc.vertex_limit = g.vertex_limit ∧
  (mapKeys acc.vertices).Nodup ∧
  (∀ k ∈ mapKeys acc.vertices,
    ∃ p ∈ g.edges, (p.2.from' == id || p.2.to' == id) = true ∧
      (k = p.2.from' ∨ k = p.2.to')) ∧
  (acc.vertices = [] ∨ id ∈ mapKeys acc.vertices) ∧
  List.Pairwise (fun p q =>
    checkEdgeIsSame (p.2.from', p.2.to') (q.2.from', q.2.to') false = false)
    acc.edges ∧
  (∀ q ∈ acc.edges,
    q.2.from' ∈ mapKeys acc.vertices ∧ q.2.to' ∈ mapKeys acc.vertices ∧
    q.2.from' ≠ q.2.to' ∧
    ∃ p ∈ g.edges, checkEdgeIsSame (q.2.from', q.2.to')
      (p.2.from', p.2.to') false = true)

/-- Two vertices, one edge `a – b`, default limits: well-formed input for
the C10 witness. -/
def gC10w : Network :=
  (addEdge (mkNetwork {}) { from' := .str "a", to' := .str "b" }).1

/-! ## Lemmas about the `JMap` model -/
theorem mapHas_iff {β : Type} (m : JMap β) (k : BaseId) :
    mapHas m k = true ↔ ∃ p ∈ m, p.1 = k := by
  simp [mapHas, List.any_eq_true, beq_iff_eq]

theorem mapHas_iff_mem_keys {β : Type} (m : JMap β) (k : BaseId) :
    mapHas m k = true ↔ k ∈ mapKeys m := by
  rw [mapHas_iff]
  simp [mapKeys, List.mem_map, eq_comm]

/-- Auxiliary: `find?` after the in-place update hits the updated entry when
the key occurs. -/
theorem find?_upd_self {β : Type} (k : BaseId) (v : β) :
    ∀ (m : JMap β), (∃ p ∈ m, p.1 = k) →
      (m.map (fun p => if (p.1 == k) = true then (k, v) else p)).find?
        (fun p => p.1 == k) = some (k, v)
  | [], h => by simp at h
  | q :: rest, h => by
    by_cases hq : q.1 = k
    · simp [List.map_cons, List.find?_cons, hq]
    · have hrest : ∃ p ∈ rest, p.1 = k := by
        obtain ⟨p, hp, hpk⟩ := h
        rcases List.mem_cons.1 hp with rfl | hp'
        · exact absurd hpk hq
        · exact ⟨p, hp', hpk⟩
      have ih := find?_upd_self k v rest hrest
      simpa [List.map_cons, List.find?_cons, hq] using ih

/-- Auxiliary: the in-place update at `k` is invisible to `find?` at any
other key. -/
theorem find?_upd_ne {β : Type} (k k' : BaseId) (v : β) (h : k ≠ k') :
    ∀ (m : JMap β),
      (m.map (fun p => if (p.1 == k) = true then (k, v) else p)).find?
        (fun p => p.1 == k') = m.find? (fun p => p.1 == k')
  | [] => by simp
  | q :: rest => by
    have ih := find?_upd_ne k k' v h rest
    simp only [List.map_cons]
    by_cases hq : q.1 = k
    · have h1 : (if (q.1 == k) = true then (k, v) else q) = (k, v) := by
        simp [hq]
      rw [h1]
      rw [List.find?_cons_of_neg _ (by simpa using h), ih,
        List.find?_cons_of_neg _ (by simp [hq]; exact h)]
    · have h1 : (if (q.1 == k) = true then (k, v) else q) = q := by
        simp [hq]
      rw [h1]
      by_cases hq' : q.1 = k'
      · rw [List.find?_cons_of_pos _ (by simpa using hq'),
          List.find?_cons_of_pos _ (by simpa using hq')]
      · rw [List.find?_cons_of_neg _ (by simpa using hq'), ih,
          List.find?_cons_of_neg _ (by simpa using hq')]

/-- Auxiliary: `find?` over an append whose first part has no match. -/
theorem find?_append_none {α : Type} (p : α → Bool) :
    ∀ (l₁ l₂ : List α), l₁.find? p = none →
      (l₁ ++ l₂).find? p = l₂.find? p
  | [], _, _ => rfl
  | a :: l₁, l₂, h => by
    have ha : p a = false := by
      cases hpa : p a with
      | false => rfl
      | true => rw [List.find?_cons_of_pos _ hpa] at h; cases h
    have h₁ : l₁.find? p = none := by
      rw [List.find?_cons_of_neg _ (by simp [ha])] at h
      exact h
    rw [List.cons_append, List.find?_cons_of_neg _ (by simp [ha])]
    exact find?_append_none p l₁ l₂ h₁

theorem mapHas_false_find?_none {β : Type} (m : JMap β) (k : BaseId)
    (h : mapHas m k = false) : m.find? (fun p => p.1 == k) = none := by
  rw [List.find?_eq_none]
  intro p hp
  simp only [beq_iff_eq]
  intro hpk
  rw [(mapHas_iff m k).2 ⟨p, hp, hpk⟩] at h
  cases h

/-- Auxiliary: `find?` over an append whose first part already matched. -/
theorem find?_append_some {α : Type} (p : α → Bool) :
    ∀ (l₁ l₂ : List α) (a : α), l₁.find? p = some a →
      (l₁ ++ l₂).find? p = some a
  | [], _, _, h => by cases h
  | b :: l₁, l₂, a, h => by
    cases hpb : p b with
    | true =>
      rw [List.find?_cons_of_pos _ hpb] at h
      rw [List.cons_append, List.find?_cons_of_pos _ hpb]
      exact h
    | false =>
      rw [List.find?_cons_of_neg _ (by simp [hpb])] at h
      rw [List.cons_append, List.find?_cons_of_neg _ (by simp [hpb])]
      exact find?_append_some p l₁ l₂ a h

theorem mapGet_mapSet_self {β : Type} (m : JMap β) (k : BaseId) (v : β) :
    mapGet (mapSet m k v) k = some v := by
  unfold mapSet
  by_cases h : mapHas m k = true
  · rw [if_pos h]
    unfold mapGet
    rw [find?_upd_self k v m ((mapHas_iff m k).1 h)]
    rfl
  · have h' : mapHas m k = false := by
      cases hmk : mapHas m k
      · rfl
      · exact absurd hmk h
    rw [if_neg h]
    unfold mapGet
    rw [find?_append_none _ m _ (mapHas_false_find?_none m k h'),
      List.find?_cons_of_pos _ (by simp)]
    rfl

theorem mapGet_mapSet_ne {β : Type} (m : JMap β) (k k' : BaseId) (v : β)
    (h : k ≠ k') : mapGet (mapSet m k v) k' = mapGet m k' := by
  unfold mapSet
  by_cases hh : mapHas m k = true
  · rw [if_pos hh]
    unfold mapGet
    rw [find?_upd_ne k k' v h m]
  · rw [if_neg hh]
    unfold mapGet
    cases hfind : m.find? (fun p => p.1 == k') with
    | some p => rw [find?_append_some _ m _ p hfind]
    | none =>
      rw [find?_append_none _ m _ hfind,
        List.find?_cons_of_neg _ (by simpa using h)]
      rfl

theorem mapHas_mapSet_self {β : Type} (m : JMap β) (k : BaseId) (v : β) :
    mapHas (mapSet m k v) k = true := by
  rw [mapHas_iff]
  unfold mapSet
  by_cases h : mapHas m k = true
  · obtain ⟨p, hp, hpk⟩ := (mapHas_iff m k).1 h
    simp only [h, if_true]
    refine ⟨(k, v), ?_, rfl⟩
    rw [List.mem_map]
    exact ⟨p, hp, by simp [hpk]⟩
  · simp only [h, if_false]
    exact ⟨(k, v), by simp, rfl⟩

theorem mapKeys_mapSet_of_has {β : Type} (m : JMap β) (k : BaseId) (v : β)
    (h : mapHas m k = true) : mapKeys (mapSet m k v) = mapKeys m := by
  unfold mapSet
  simp only [h, if_true, mapKeys, List.map_map]
  apply List.map_congr_left
  intro p _
  by_cases hp : p.1 = k
  · simp [hp]
  · simp [hp]

/-- Pigeonhole: among the `m.length + 1` numeric ids `0 … m.length`, at least
one is not a key of `m`. -/
theorem exists_free_nat {β : Type} (m : JMap β) :
    ∃ n ∈ List.range (m.length + 1), mapHas m (.num (n : Int)) = false := by
  by_contra hcon
  push_neg at hcon
  have hall : ∀ n ∈ List.range (m.length + 1),
      BaseId.num (n : Int) ∈ mapKeys m := by
    intro n hn
    have hne := hcon n hn
    have ht : mapHas m (.num (n : Int)) = true := by
      cases hmk : mapHas m (.num (n : Int))
      · exact absurd hmk hne
      · rfl
    exact (mapHas_iff_mem_keys m _).1 ht
  have hnodup : ((List.range (m.length + 1)).map
      (fun n : Nat => BaseId.num (n : Int))).Nodup := by
    refine List.Nodup.map ?_ (List.nodup_range _)
    intro a b hab
    have : (a : Int) = (b : Int) := by injection hab
    exact_mod_cast this
  have hsub : ((List.range (m.length + 1)).map
      (fun n : Nat => BaseId.num (n : Int))) ⊆ mapKeys m := by
    intro x hx
    obtain ⟨n, hn, rfl⟩ := List.mem_map.1 hx
    exact hall n hn
  have hle := (List.subperm_of_subset hnodup hsub).length_le
  rw [List.length_map, List.length_range] at hle
  have : (mapKeys m).length = m.length := List.length_map m Prod.fst
  omega

/-- `newEID` always returns an id that is not yet an edge key, and only bumps
the counter. -/
theorem newEID_spec (net : Network) :
    mapHas net.edges (.num ((newEID net).1 : Int)) = false ∧
    (newEID net).2 = { net with free_eid := net.free_eid + 1 } := by
  unfold newEID
  by_cases h : mapHas net.edges (.num (net.free_eid : Int)) = true
  · have hsome : ((List.range (net.edges.length + 1)).find?
        (fun n : Nat => !mapHas net.edges (.num (n : Int)))).isSome := by
      rw [List.find?_isSome]
      obtain ⟨n, hn, hfree⟩ := exists_free_nat net.edges
      exact ⟨n, hn, by simp [hfree]⟩
    obtain ⟨n, hfind⟩ := Option.isSome_iff_exists.1 hsome
    have hpred := List.find?_some hfind
    simp only [h, if_true]
    constructor
    · simp only [hfind, Option.getD_some]
      simpa using hpred
    · trivial
  · have h' : mapHas net.edges (.num (net.free_eid : Int)) = false := by
      cases hmk : mapHas net.edges (.num (net.free_eid : Int))
      · rfl
      · exact absurd hmk h
    simp only [h, if_false]
    exact ⟨h', rfl⟩

/-! ## Easy structural facts -/
theorem edge_list_eq (net : Network) : edge_list net = net.edges.map Prod.snd := rfl

/-- `hasEdge` depends only on the edge collection. -/
theorem hasEdge_congr (n1 n2 : Network) (f t : BaseId) (d : Bool)
    (h : n1.edges = n2.edges) : hasEdge n1 f t d = hasEdge n2 f t d := by
  simp [hasEdge, edge_list, h]

/-! ## Characterization of the dijkstra neighbor enumeration (C1) -/
theorem cncFold_vertices (o : Bool) :
    ∀ (l : List (BaseId × Vertex)) (acc : Network),
      (l.foldl (cncStep o) acc).vertices = acc.vertices
  | [], _ => rfl
  | p :: rest, acc => cncFold_vertices o rest (cncStep o acc p)

theorem cncFold_edges (o : Bool) :
    ∀ (l : List (BaseId × Vertex)) (acc : Network),
      (l.foldl (cncStep o) acc).edges = acc.edges
  | [], _ => rfl
  | p :: rest, acc => cncFold_edges o rest (cncStep o acc p)

theorem cncFold_is_directed (o : Bool) :
    ∀ (l : List (BaseId × Vertex)) (acc : Network),
      (l.foldl (cncStep o) acc).is_directed = acc.is_directed
  | [], _ => rfl
  | p :: rest, acc => cncFold_is_directed o rest (cncStep o acc p)

theorem cncFold_predecessor (o : Bool) :
    ∀ (l : List (BaseId × Vertex)) (acc : Network),
      (l.foldl (cncStep o) acc).predecessor = acc.predecessor
  | [], _ => rfl
  | p :: rest, acc => cncFold_predecessor o rest (cncStep o acc p)

/-- After the cache-building fold, the entry of any vertex id occurring in
the folded list is the neighborhood computed from the (unchanged) vertex and
edge collections. -/
theorem cncFold_get (o : Bool) (V : JMap Vertex) (E : JMap Edge) (v : BaseId) :
    ∀ (l : List (BaseId × Vertex)) (acc : Network),
      acc.vertices = V → acc.edges = E →
      ((∃ p ∈ l, p.2.id = v) ∨
        mapGet acc.neighbors_cache v = some (cacheEntry V E v o)) →
      mapGet (l.foldl (cncStep o) acc).neighbors_cache v
        = some (cacheEntry V E v o)
  | [], _, _, _, h => by
    rcases h with h | h
    · simp at h
    · exact h
  | p :: rest, acc, hV, hE, h => by
    refine cncFold_get o V E v rest (cncStep o acc p) hV hE ?_
    by_cases hpv : p.2.id = v
    · right
      show mapGet (mapSet acc.neighbors_cache p.2.id
        (cacheEntry acc.vertices acc.edges p.2.id o)) v = _
      rw [hpv, hV, hE]
      exact mapGet_mapSet_self _ _ _
    · rcases h with h | h
      · rcases h with ⟨q, hq, hqv⟩
        rcases List.mem_cons.1 hq with rfl | hq'
        · exact absurd hqv hpv
        · exact Or.inl ⟨q, hq', hqv⟩
      · right
        show mapGet (mapSet acc.neighbors_cache p.2.id
          (cacheEntry acc.vertices acc.edges p.2.id o)) v = _
        rw [mapGet_mapSet_ne _ _ _ _ hpv]
        exact h

/-- With a stale cache, `edge_neighbors` returns exactly the freshly
computed neighborhood of any present vertex. -/
theorem edge_neighbors_fresh (g : Network) (v : BaseId) (o : Bool)
    (hv : ∃ p ∈ g.vertices, p.2.id = v)
    (hc : g.neighbors_cached = false) :
    (edge_neighbors g v o).2 = some (cacheEntry g.vertices g.edges v o) := by
  unfold edge_neighbors constructNeighborsCache
  rw [hc]
  simp only [Bool.not_false, if_true]
  exact cncFold_get o g.vertices g.edges v g.vertices g rfl rfl (Or.inl hv)

/-- Membership in the first conditional push. -/
theorem cacheEntryStep1_mem (V : JMap Vertex) (v : BaseId)
    (nb : List (BaseId × ℚ)) (pe : BaseId × Edge) (x : BaseId × ℚ) :
    x ∈ cacheEntryStep1 V v nb pe ↔
      x ∈ nb ∨ (pe.2.from' = v ∧
        ∃ vt, mapGet V pe.2.to' = some vt ∧ x = (vt.id, pe.2.weight)) := by
  unfold cacheEntryStep1
  cases h1 : (pe.2.from' == v) with
  | false =>
    have h1' : ¬ pe.2.from' = v := by simpa using h1
    rw [if_neg (by simp [h1])]
    simp [h1']
  | true =>
    have h1' : pe.2.from' = v := by simpa using h1
    rw [if_pos rfl]
    cases h3 : mapGet V pe.2.to' with
    | some vt => simp [h1', h3]
    | none => simp [h1', h3]

/-- Membership in the second conditional push. -/
theorem cacheEntryStep2_mem (V : JMap Vertex) (v : BaseId) (o : Bool)
    (nb : List (BaseId × ℚ)) (pe : BaseId × Edge) (x : BaseId × ℚ) :
    x ∈ cacheEntryStep2 V v o nb pe ↔
      x ∈ nb ∨ (pe.2.to' = v ∧ o = true ∧
        ∃ vf, mapGet V pe.2.from' = some vf ∧ x = (vf.id, pe.2.weight)) := by
  unfold cacheEntryStep2
  cases h2 : (pe.2.to' == v && o) with
  | false =>
    have h2' : ¬ (pe.2.to' = v ∧ o = true) := by
      intro hcon
      rw [hcon.1, hcon.2] at h2
      simp at h2
    rw [if_neg (by simp [h2])]
    constructor
    · exact Or.inl
    · rintro (h | ⟨ht, ho, _⟩)
      · exact h
      · exact absurd ⟨ht, ho⟩ h2'
  | true =>
    have h2' : pe.2.to' = v ∧ o = true := by
      simpa [Bool.and_eq_true] using h2
    rw [if_pos rfl]
    cases h4 : mapGet V pe.2.from' with
    | some vf => simp [h2'.1, h2'.2, h4]
    | none => simp [h2'.1, h2'.2, h4]

/-- One step of the neighborhood scan appends its contribution. -/
theorem cacheEntryStep_append (V : JMap Vertex) (v : BaseId) (o : Bool)
    (nb : List (BaseId × ℚ)) (pe : BaseId × Edge) :
    cacheEntryStep V v o nb pe = nb ++ cacheEntryStep V v o [] pe := by
  unfold cacheEntryStep cacheEntryStep1 cacheEntryStep2
  cases h1 : (pe.2.from' == v) <;> cases h2 : (pe.2.to' == v && o) <;>
    cases h3 : mapGet V pe.2.to' <;> cases h4 : mapGet V pe.2.from' <;>
      simp [h1, h2, h3, h4]

/-- Membership in the neighborhood fold. -/
theorem cacheEntry_fold_mem (V : JMap Vertex) (v : BaseId) (o : Bool) :
    ∀ (l : List (BaseId × Edge)) (nb : List (BaseId × ℚ)) (x : BaseId × ℚ),
      (x ∈ l.foldl (cacheEntryStep V v o) nb ↔
        x ∈ nb ∨ ∃ p ∈ l, x ∈ cacheEntryStep V v o [] p)
  | [], nb, x => by simp
  | p :: rest, nb, x => by
    have ih := cacheEntry_fold_mem V v o rest (cacheEntryStep V v o nb p) x
    show x ∈ rest.foldl _ (cacheEntryStep V v o nb p) ↔ _
    rw [ih, cacheEntryStep_append, List.mem_append]
    constructor
    · rintro ((h | h) | h)
      · exact Or.inl h
      · exact Or.inr ⟨p, List.mem_cons_self p rest, h⟩
      · rcases h with ⟨q, hq, hx⟩
        exact Or.inr ⟨q, List.mem_cons_of_mem _ hq, hx⟩
    · rintro (h | ⟨q, hq, hx⟩)
      · exact Or.inl (Or.inl h)
      · rcases List.mem_cons.1 hq with rfl | hq'
        · exact Or.inl (Or.inr hx)
        · exact Or.inr ⟨q, hq', hx⟩

theorem mapGet_isSome_iff {β : Type} (m : JMap β) (k : BaseId) :
    (mapGet m k).isSome = true ↔ mapHas m k = true := by
  rw [mapHas_iff]
  unfold mapGet
  cases hf : m.find? (fun p => p.1 == k) with
  | none =>
    constructor
    · intro h; cases h
    · rintro ⟨p, hp, hpk⟩
      have := List.find?_eq_none.1 hf p hp
      simp [hpk] at this
  | some p =>
    constructor
    · intro _
      exact ⟨p, List.mem_of_find?_eq_some hf, by simpa using List.find?_some hf⟩
    · intro _; rfl

/-- Under the key-equals-id invariant, resolving a key yields a vertex
carrying that key as id. -/
theorem mapGet_id (V : JMap Vertex) (hid : ∀ p ∈ V, p.2.id = p.1)
    (k : BaseId) (vt : Vertex) (h : mapGet V k = some vt) : vt.id = k := by
  unfold mapGet at h
  cases hf : V.find? (fun p => p.1 == k) with
  | none => rw [hf] at h; cases h
  | some p =>
    rw [hf] at h
    have hp : p ∈ V := List.mem_of_find?_eq_some hf
    have hpk : p.1 = k := by simpa using List.find?_some hf
    have h' : some p.2 = some vt := h
    injection h' with h'
    rw [← h', hid p hp, hpk]

/-- The contribution of one edge to the neighborhood of `v`: the other end
`u`, provided `u` resolves in the vertices map, in the direction(s) allowed
by `oriented`. -/
theorem cacheEntryStep_mem (V : JMap Vertex) (v : BaseId) (o : Bool)
    (hid : ∀ p ∈ V, p.2.id = p.1) (pe : BaseId × Edge) (u : BaseId) :
    (∃ w, (u, w) ∈ cacheEntryStep V v o [] pe) ↔
      (mapHas V u = true ∧
        ((pe.2.from' = v ∧ pe.2.to' = u) ∨
         (o = true ∧ pe.2.to' = v ∧ pe.2.from' = u))) := by
  have hHasOf : ∀ k (vt : Vertex), mapGet V k = some vt → mapHas V k = true := by
    intro k vt h
    exact (mapGet_isSome_iff V k).1 (by rw [h]; rfl)
  unfold cacheEntryStep
  constructor
  · rintro ⟨w, hw⟩
    rw [cacheEntryStep2_mem] at hw
    rcases hw with hw | ⟨hto, ho, vf, hget, hx⟩
    · rw [cacheEntryStep1_mem] at hw
      rcases hw with hw | ⟨hfrom, vt, hget, hx⟩
      · simp at hw
      · have hu : u = vt.id := by
          have := congrArg Prod.fst hx
          simpa using this
        have hvt := mapGet_id V hid _ _ hget
        refine ⟨by rw [hu, hvt]; exact hHasOf _ _ hget, Or.inl ⟨hfrom, ?_⟩⟩
        rw [hu, hvt]
    · have hu : u = vf.id := by
        have := congrArg Prod.fst hx
        simpa using this
      have hvf := mapGet_id V hid _ _ hget
      refine ⟨by rw [hu, hvf]; exact hHasOf _ _ hget, Or.inr ⟨ho, hto, ?_⟩⟩
      rw [hu, hvf]
  · rintro ⟨hu, ⟨hfrom, hto⟩ | ⟨ho, hto, hfrom⟩⟩
    · obtain ⟨vt, hget⟩ := Option.isSome_iff_exists.1
        ((mapGet_isSome_iff V pe.2.to').2 (by rw [hto]; exact hu))
      refine ⟨pe.2.weight, ?_⟩
      rw [cacheEntryStep2_mem, cacheEntryStep1_mem]
      refine Or.inl (Or.inr ⟨hfrom, vt, hget, ?_⟩)
      rw [mapGet_id V hid _ _ hget, hto]
    · obtain ⟨vf, hget⟩ := Option.isSome_iff_exists.1
        ((mapGet_isSome_iff V pe.2.from').2 (by rw [hfrom]; exact hu))
      refine ⟨pe.2.weight, ?_⟩
      rw [cacheEntryStep2_mem]
      refine Or.inr ⟨hto, ho, vf, hget, ?_⟩
      rw [mapGet_id V hid _ _ hget, hfrom]

/-! ## C9 -/

/-- C9: for every constructor argument object – including one with
`is_multigraph` set to `true` – the constructed network has
`is_multigraph = false` (the constructor assigns the literal `false`),
so the multigraph-only behaviours are never enabled. -/
theorem mkNetwork_is_multigraph_false (args : NetworkArgs) :
    (mkNetwork args).is_multigraph = false := rfl

/-! ## C5 -/

/-- C5 counterexample: with `vertex_limit = 1` and an empty network, the
vertex count (0) is strictly below the limit, the id is fresh, yet
`addVertex` fails with `VertexLimitExceeded` – refuting "it succeeds
whenever the current vertex count is strictly below `vertex_limit`". -/
theorem addVertex_below_limit_fails_counterexample :
    gC5.vertices.length < gC5.vertex_limit ∧
    mapHas gC5.vertices (.str "a") = false ∧
    (addVertex gC5 { id := .str "a" }).2 = .error .VERTICE_LIMIT := by decide

/-- C5 amended: for a fresh id, `addVertex` fails with `VertexLimitExceeded`
iff `|V| + 1 ≥ vertex_limit` (so the limit itself is unreachable: the call
already fails when adding would only reach it), the state is unchanged on
failure, and the call succeeds whenever `|V| + 1 < vertex_limit`. -/
theorem addVertex_limit_check (g : Network) (args : VertexArgs)
    (hfresh : mapHas g.vertices args.id = false) :
    ((addVertex g args).2 = .error .VERTICE_LIMIT ↔
      g.vertex_limit ≤ g.vertices.length + 1) ∧
    (g.vertex_limit ≤ g.vertices.length + 1 → (addVertex g args).1 = g) ∧
    (g.vertices.length + 1 < g.vertex_limit →
      (addVertex g args).2 = .ok ((addVertex g args).1.vertices.length)) := by
  unfold addVertex
  by_cases h1 : g.vertex_limit ≤ g.vertices.length + 1
  · rw [if_pos h1]
    exact ⟨⟨fun _ => h1, fun _ => rfl⟩, fun _ => rfl, fun h2 => by omega⟩
  · rw [if_neg h1, if_neg (by simp [hfresh])]
    exact ⟨⟨fun hcon => Except.noConfusion hcon, fun h2 => absurd h2 h1⟩,
      fun h2 => absurd h2 h1, fun _ => rfl⟩

/-- C5 witness: the amended statement instantiated on the default (empty)
network. -/
theorem addVertex_limit_check_witness :
    ((addVertex (mkNetwork {}) { id := .str "a" }).2 = .error .VERTICE_LIMIT ↔
      (mkNetwork {}).vertex_limit ≤ (mkNetwork {}).vertices.length + 1) ∧
    ((mkNetwork {}).vertex_limit ≤ (mkNetwork {}).vertices.length + 1 →
      (addVertex (mkNetwork {}) { id := .str "a" }).1 = mkNetwork {}) ∧
    ((mkNetwork {}).vertices.length + 1 < (mkNetwork {}).vertex_limit →
      (addVertex (mkNetwork {}) { id := .str "a" }).2 =
        .ok ((addVertex (mkNetwork {}) { id := .str "a" }).1.vertices.length)) :=
  addVertex_limit_check (mkNetwork {}) { id := .str "a" } (by decide)

/-! ## C8 -/

/-- C8: `addVertexList` stores each vertex under the **array index** as key
(the `forEach` callback's second argument), not under the vertex's own id:
on an empty network, `addVertexList [{id:"a",weight:2}]` stores the vertex
under the numeric key `0` while its id is `"a"`, and adding `"a"` twice
yields two entries bearing the same vertex id – both violating the
key-equals-id / unique-ids invariant the claim asserts. -/
theorem addVertexList_stores_under_index_key :
    (addVertexList (mkNetwork {}) [{ id := .str "a", weight := some 2 }]).1.vertices
      = [(.num 0, { id := .str "a", weight := 2 })] ∧
    BaseId.num 0 ≠ BaseId.str "a" ∧
    ((addVertexList (mkNetwork {}) [{ id := .str "a" }, { id := .str "a" }]).1.vertices.map
      (fun p => p.2.id)) = [.str "a", .str "a"] := by decide

/-! ## C4 -/

/-- C4: the scan of `core` restarts at index **1** after a removal (the
source sets `vertex_counter = 0` and the `for` increment immediately bumps
it), so a vertex sitting at index 0 can escape the sweep: on the graph with
edges `(e,a), (a,b), (b,c), (c,d), (d,b)`, `core 2` succeeds and returns a
subgraph that still contains vertex `a` with degree 1 < 2. -/
theorem core_retains_low_degree_vertex :
    core gC4 2 = .ok gC4core ∧
    hasVertex gC4core (.str "a") = true ∧
    degree gC4core (.str "a") = 1 := by
  exact ⟨rfl, by decide, by decide⟩

/-! ## C1 amended -/

/-- C1 amended: with a stale cache (the state after any mutation) and the
key-equals-id invariant, the neighbor list dijkstra's relaxation enumerates
for a present vertex `v` (`edge_neighbors(v, !is_directed)`) contains a
vertex `u` **iff** `u` resolves in the vertices map and some edge leaves `v`
towards `u`, or – only when `is_directed` is false – some edge arrives at
`v` from `u`.  Traversal therefore respects the direction flag instead of
always treating the graph as undirected. -/
theorem dijkstra_neighbors_characterization (g : Network) (v : BaseId)
    (hv : mapHas g.vertices v = true)
    (hc : g.neighbors_cached = false)
    (hid : ∀ p ∈ g.vertices, p.2.id = p.1) :
    ∃ l, (edge_neighbors g v (!g.is_directed)).2 = some l ∧
      ∀ u : BaseId, (∃ w, (u, w) ∈ l) ↔
        (mapHas g.vertices u = true ∧
          ∃ p ∈ g.edges,
            ((p.2.from' = v ∧ p.2.to' = u) ∨
             (g.is_directed = false ∧ p.2.to' = v ∧ p.2.from' = u))) := by
  have hv' : ∃ p ∈ g.vertices, p.2.id = v := by
    obtain ⟨p, hp, hpk⟩ := (mapHas_iff g.vertices v).1 hv
    exact ⟨p, hp, by rw [hid p hp]; exact hpk⟩
  refine ⟨cacheEntry g.vertices g.edges v (!g.is_directed),
    edge_neighbors_fresh g v _ hv' hc, fun u => ?_⟩
  unfold cacheEntry
  constructor
  · rintro ⟨w, hw⟩
    rw [cacheEntry_fold_mem] at hw
    rcases hw with hw | ⟨p, hp, hx⟩
    · simp at hw
    · have := (cacheEntryStep_mem g.vertices v (!g.is_directed) hid p u).1 ⟨w, hx⟩
      refine ⟨this.1, p, hp, ?_⟩
      rcases this.2 with h | ⟨ho, h⟩
      · exact Or.inl h
      · exact Or.inr ⟨by simpa using ho, h⟩
  · rintro ⟨hu, p, hp, hdir⟩
    have hstep : mapHas g.vertices u = true ∧
        ((p.2.from' = v ∧ p.2.to' = u) ∨
         ((!g.is_directed) = true ∧ p.2.to' = v ∧ p.2.from' = u)) := by
      refine ⟨hu, ?_⟩
      rcases hdir with h | ⟨hd, h⟩
      · exact Or.inl h
      · exact Or.inr ⟨by simp [hd], h⟩
    obtain ⟨w, hw⟩ :=
      (cacheEntryStep_mem g.vertices v (!g.is_directed) hid p u).2 hstep
    refine ⟨w, ?_⟩
    rw [cacheEntry_fold_mem]
    exact Or.inr ⟨p, hp, hw⟩

/-- C1 witness: the characterization instantiated on the undirected square
`a–b–c–d–a` at vertex `a`. -/
theorem dijkstra_neighbors_characterization_witness :
    ∃ l, (edge_neighbors gSquare (.str "a") (!gSquare.is_directed)).2 = some l ∧
      ∀ u : BaseId, (∃ w, (u, w) ∈ l) ↔
        (mapHas gSquare.vertices u = true ∧
          ∃ p ∈ gSquare.edges,
            ((p.2.from' = .str "a" ∧ p.2.to' = u) ∨
             (gSquare.is_directed = false ∧ p.2.to' = .str "a" ∧ p.2.from' = u))) :=
  dijkstra_neighbors_characterization gSquare (.str "a")
    (by decide) (by decide) (by decide)

/-! ## C1 counterexample -/

/-- C1 counterexample: on a directed graph with the single edge `b → a`,
vertex `a` is present and the edge arrives at `a`, yet the neighbor list the
dijkstra relaxation enumerates for `a` (`edge_neighbors(a, !is_directed)`)
is empty – the traversal respects the direction flag instead of treating the
graph as undirected. -/
theorem dijkstra_neighbors_respect_direction_counterexample :
    gC1.is_directed = true ∧
    hasVertex gC1 (.str "a") = true ∧
    (∃ p ∈ gC1.edges, p.2.to' = .str "a" ∧ p.2.from' = .str "b") ∧
    (edge_neighbors gC1 (.str "a") (!gC1.is_directed)).2 = some [] := by decide

/-! ## C3 counterexample -/

/-- C3 counterexample: a legitimately built graph (`vertex_limit = 4`,
vertices `a`, `b`, one edge) on which `copy()` throws `VertexLimitExceeded`:
`addVertexMap` checks `|V_copy| + |V| ≥ vertex_limit` after `addEdgeMap`
has already recreated the two endpoint vertices, and `2 + 2 ≥ 4`. -/
theorem copy_throws_counterexample :
    (addVertex (mkNetwork { vertex_limit := some 4 }) { id := .str "a" }).2 = .ok 1 ∧
    (addVertex (addVertex (mkNetwork { vertex_limit := some 4 })
      { id := .str "a" }).1 { id := .str "b" }).2 = .ok 2 ∧
    (addEdge (addVertex (addVertex (mkNetwork { vertex_limit := some 4 })
      { id := .str "a" }).1 { id := .str "b" }).1
      { from' := .str "a", to' := .str "b" }).2 = .ok true ∧
    copy gC3 = .error .VERTICE_LIMIT := by decide

/-! ## C6 counterexample -/

/-- C6 counterexample: on a directed graph holding only `a → b`, adding the
reverse edge `b → a` passes the self-loop/limit/duplicate-id checks and no
directed edge `b → a` exists, yet the call is a no-op returning `false`
(instead of inserting and returning `true` as the claim states): `addEdge`'s
duplicate check calls `hasEdge(from, to)` whose directedness parameter
defaults to `false`. -/
theorem addEdge_reverse_directed_noop_counterexample :
    gC6.is_directed = true ∧
    hasEdge gC6 (.str "a") (.str "b") true = true ∧
    hasEdge gC6 (.str "b") (.str "a") true = false ∧
    (addEdge gC6 { from' := .str "b", to' := .str "a" }).2 = .ok false ∧
    (addEdge gC6 { from' := .str "b", to' := .str "a" }).1.edges = gC6.edges := by
  decide

/-! ## C6 amended -/

/-- The duplicate-check behaviour of the `addEdge` body once the id is
resolved: with the non-multigraph flag, a passing self-loop/limit/fresh-id
precondition and both endpoints present, the call is a no-op returning
`false` iff an edge already connects the unordered pair, and inserts
(returning `true`) otherwise. -/
theorem addEdgeResolved_noop_iff (net : Network) (args : EdgeArgs) (id : BaseId)
    (hmg : net.is_multigraph = false)
    (hforce : args.do_force = none ∨ args.do_force = some true)
    (hne : args.from' ≠ args.to')
    (hlim : net.edges.length < net.edge_limit)
    (hfresh : mapHas net.edges id = false)
    (hfrom : mapHas net.vertices args.from' = true)
    (hto : mapHas net.vertices args.to' = true) :
    ((addEdgeResolved net args id).2 = .ok false ↔
      hasEdge net args.from' args.to' false = true) ∧
    ((addEdgeResolved net args id).2 = .ok false →
      (addEdgeResolved net args id).1.edges = net.edges) ∧
    (hasEdge net args.from' args.to' false = false →
      (addEdgeResolved net args id).2 = .ok true) := by
  have hdf : args.do_force.getD true = true := by
    rcases hforce with h | h <;> rw [h] <;> rfl
  have hlim' : ¬ (net.edges.length ≥ net.edge_limit) := by omega
  unfold addEdgeResolved addEdgeFinish
  cases hdup : hasEdge net args.from' args.to' false with
  | true =>
    have hdup2 : (net.edges.map Prod.snd).any
        (fun e => checkEdgeIsSame (e.from', e.to') (args.from', args.to') false)
        = true := hdup
    simp only [hdf, hfresh, eq_false hne, eq_false hlim', hfrom, hto, hmg]
    simp [hasEdge, edge_list, hdup2, hfrom, hto]
  | false =>
    have hdup2 : (net.edges.map Prod.snd).any
        (fun e => checkEdgeIsSame (e.from', e.to') (args.from', args.to') false)
        = false := hdup
    simp only [hdf, hfresh, eq_false hne, eq_false hlim', hfrom, hto, hmg]
    simp [hasEdge, edge_list, hdup2, hfrom, hto]

/-- C6 amended: `addEdge` (non-multigraph, default `do_force`, self-loop /
limit / duplicate-id checks passing, both endpoints present) is a no-op
returning `false` exactly when some edge already connects `{from, to}` in
**either** orientation, regardless of `is_directed`; otherwise it inserts
and returns `true`. -/
theorem addEdge_noop_iff_undirected_dup (net : Network) (args : EdgeArgs)
    (hmg : net.is_multigraph = false)
    (hforce : args.do_force = none ∨ args.do_force = some true)
    (hne : args.from' ≠ args.to')
    (hlim : net.edges.length < net.edge_limit)
    (hid : ∀ i, args.id = some i → mapHas net.edges i = false)
    (hfrom : mapHas net.vertices args.from' = true)
    (hto : mapHas net.vertices args.to' = true) :
    ((addEdge net args).2 = .ok false ↔
      hasEdge net args.from' args.to' false = true) ∧
    ((addEdge net args).2 = .ok false → (addEdge net args).1.edges = net.edges) ∧
    (hasEdge net args.from' args.to' false = false →
      (addEdge net args).2 = .ok true) := by
  unfold addEdge
  cases hai : args.id with
  | some i =>
    exact addEdgeResolved_noop_iff net args i hmg hforce hne hlim
      (hid i hai) hfrom hto
  | none =>
    obtain ⟨hfresh, hstate⟩ := newEID_spec net
    have h := addEdgeResolved_noop_iff (newEID net).2 args
      (.num ((newEID net).1 : Int))
      (by rw [hstate]; exact hmg) hforce hne
      (by rw [hstate]; exact hlim)
      (by rw [hstate]; exact hfresh)
      (by rw [hstate]; exact hfrom)
      (by rw [hstate]; exact hto)
    rw [show hasEdge net args.from' args.to' false =
          hasEdge (newEID net).2 args.from' args.to' false by rw [hstate]; rfl,
        show net.edges = (newEID net).2.edges by rw [hstate]]
    exact h

/-- C6 witness: the amended statement instantiated on the directed graph
holding the single edge `a → b`, for the reverse call `b → a`. -/
theorem addEdge_noop_iff_undirected_dup_witness :
    ((addEdge gC6 { from' := .str "b", to' := .str "a" }).2 = .ok false ↔
      hasEdge gC6 (.str "b") (.str "a") false = true) ∧
    ((addEdge gC6 { from' := .str "b", to' := .str "a" }).2 = .ok false →
      (addEdge gC6 { from' := .str "b", to' := .str "a" }).1.edges = gC6.edges) ∧
    (hasEdge gC6 (.str "b") (.str "a") false = false →
      (addEdge gC6 { from' := .str "b", to' := .str "a" }).2 = .ok true) :=
  addEdge_noop_iff_undirected_dup gC6 { from' := .str "b", to' := .str "a" }
    (by decide) (Or.inl rfl) (by decide) (by decide)
    (fun i h => by cases h) (by decide) (by decide)

/-! ## C7 amended: machinery -/

theorem EdgeConn_symm {E : JMap Edge} {a b : BaseId} (h : EdgeConn E a b) :
    EdgeConn E b a := by
  obtain ⟨p, hp, h | h⟩ := h
  · exact ⟨p, hp, Or.inr h⟩
  · exact ⟨p, hp, Or.inl h⟩

/-- `mapSet` preserves any pointwise property that the new entry enjoys. -/
theorem mapSet_forall {β : Type} (m : JMap β) (k : BaseId) (v : β)
    (P : BaseId × β → Prop) (hm : ∀ p ∈ m, P p) (hv : P (k, v)) :
    ∀ p ∈ mapSet m k v, P p := by
  intro p hp
  unfold mapSet at hp
  by_cases h : mapHas m k = true
  · rw [if_pos h] at hp
    obtain ⟨q, hq, hqe⟩ := List.mem_map.1 hp
    by_cases hqk : q.1 = k
    · rw [if_pos (by simpa using hqk)] at hqe
      rw [← hqe]; exact hv
    · rw [if_neg (by simpa using hqk)] at hqe
      rw [← hqe]; exact hm q hq
  · rw [if_neg h] at hp
    rcases List.mem_append.1 hp with h' | h'
    · exact hm p h'
    · rw [List.mem_singleton.1 h']; exact hv

/-- The element picked by the `foldl`-minimum scan is one of the inputs. -/
theorem foldl_pick_mem (f : BaseId → BaseId → Bool) :
    ∀ (xs : List BaseId) (x : BaseId),
      xs.foldl (fun b y => if f y b then y else b) x ∈ x :: xs
  | [], x => List.mem_singleton.2 rfl
  | y :: ys, x => by
    have ih := foldl_pick_mem f ys (if f y x then y else x)
    simp only [List.foldl_cons]
    rcases List.mem_cons.1 ih with h | h
    · rw [h]
      by_cases hf : f y x = true
      · rw [if_pos hf]
        exact List.mem_cons_of_mem _ (List.mem_cons_self _ _)
      · rw [if_neg hf]
        exact List.mem_cons_self _ _
    · exact List.mem_cons_of_mem _ (List.mem_cons_of_mem _ h)

/-- `popMin` pops an element of the queue and keeps a sub-collection. -/
theorem popMin_spec (net : Network) (q : List BaseId) (cur : BaseId)
    (rest : List BaseId) (h : popMin net q = some (cur, rest)) :
    cur ∈ q ∧ ∀ x ∈ rest, x ∈ q := by
  unfold popMin at h
  cases q with
  | nil => cases h
  | cons x xs =>
    simp only [Option.some.injEq, Prod.mk.injEq] at h
    obtain ⟨h1, h2⟩ := h
    constructor
    · rw [← h1]
      exact foldl_pick_mem _ xs x
    · rw [← h2]
      intro y hy
      exact List.erase_subset _ _ hy

/-- `value_a_infini` rewrites weights only: keys, membership and the
key-equals-id invariant survive. -/
theorem value_a_infini_parts (net : Network) :
    (value_a_infini net).edges = net.edges ∧
    (value_a_infini net).is_directed = net.is_directed ∧
    (value_a_infini net).neighbors_cached = net.neighbors_cached ∧
    (value_a_infini net).predecessor = net.predecessor ∧
    mapKeys (value_a_infini net).vertices = mapKeys net.vertices ∧
    ((∀ p ∈ net.vertices, p.2.id = p.1) →
      ∀ p ∈ (value_a_infini net).vertices, p.2.id = p.1) := by
  refine ⟨rfl, rfl, rfl, rfl, ?_, ?_⟩
  · show mapKeys (net.vertices.map _) = _
    unfold mapKeys
    rw [List.map_map]
    rfl
  · intro hid p hp
    obtain ⟨q, hq, hqe⟩ := List.mem_map.1 hp
    rw [← hqe]
    exact hid q hq

/-- What one relaxation does to the state. -/
theorem update_distances_parts (st : Network) (v1 v2 : BaseId) (d : ℚ) :
    (update_distances st v1 v2 d).1.edges = st.edges ∧
    (update_distances st v1 v2 d).1.is_directed = st.is_directed ∧
    (update_distances st v1 v2 d).1.neighbors_cached = st.neighbors_cached ∧
    (update_distances st v1 v2 d).1.neighbors_cache = st.neighbors_cache ∧
    mapKeys (update_distances st v1 v2 d).1.vertices = mapKeys st.vertices ∧
    ((∀ p ∈ st.vertices, p.2.id = p.1) →
      ∀ p ∈ (update_distances st v1 v2 d).1.vertices, p.2.id = p.1) ∧
    (∀ id vid,
      mapGet (update_distances st v1 v2 d).1.predecessor id = some (some vid) →
      (id = v2 ∧ vid = v1) ∨ mapGet st.predecessor id = some (some vid)) ∧
    ((update_distances st v1 v2 d).2 = true → mapHas st.vertices v2 = true) := by
  unfold update_distances
  cases hg1 : mapGet st.vertices v1 with
  | none => exact ⟨rfl, rfl, rfl, rfl, rfl, fun h => h, fun _ _ h => Or.inr h,
      fun h => by cases h⟩
  | some a =>
    cases hg2 : mapGet st.vertices v2 with
    | none => exact ⟨rfl, rfl, rfl, rfl, rfl, fun h => h, fun _ _ h => Or.inr h,
        fun h => by cases h⟩
    | some b =>
      have hb2 : mapHas st.vertices v2 = true :=
        (mapGet_isSome_iff st.vertices v2).1 (by rw [hg2]; rfl)
      dsimp only
      by_cases himp : qlt (qAdd a.weight d) b.weight = true
      · rw [if_pos himp]
        refine ⟨rfl, rfl, rfl, rfl, ?_, ?_, ?_, fun _ => hb2⟩
        · exact mapKeys_mapSet_of_has st.vertices v2 _ hb2
        · intro hid
          refine mapSet_forall st.vertices v2 _ _ hid ?_
          show ({ b with weight := qAdd a.weight d } : Vertex).id = v2
          show b.id = v2
          exact mapGet_id st.vertices hid v2 b hg2
        · intro id vid hpred
          by_cases hiv : id = v2
          · subst hiv
            rw [mapGet_mapSet_self] at hpred
            injection hpred with hpred
            injection hpred with hpred
            exact Or.inl ⟨rfl, hpred.symm⟩
          · rw [mapGet_mapSet_ne _ _ _ _ (Ne.symm hiv)] at hpred
            exact Or.inr hpred
      · rw [if_neg himp]
        exact ⟨rfl, rfl, rfl, rfl, rfl, fun h => h, fun _ _ h => Or.inr h,
          fun h => by cases h⟩

/-- Every entry of a computed neighborhood is joined to its vertex by an
edge (whatever the `oriented` flag). -/
theorem cacheEntry_conn (V : JMap Vertex) (E : JMap Edge) (v : BaseId)
    (o : Bool) (hid : ∀ p ∈ V, p.2.id = p.1) :
    ∀ x ∈ cacheEntry V E v o, EdgeConn E v x.1 := by
  intro x hx
  rw [cacheEntry, cacheEntry_fold_mem] at hx
  rcases hx with hx | ⟨p, hp, hx⟩
  · simp at hx
  · have hmem : ∃ w, (x.1, w) ∈ cacheEntryStep V v o [] p := ⟨x.2, hx⟩
    have := (cacheEntryStep_mem V v o hid p x.1).1 hmem
    rcases this.2 with h | ⟨_, h1, h2⟩
    · exact ⟨p, hp, Or.inl h⟩
    · exact ⟨p, hp, Or.inr ⟨h2, h1⟩⟩

/-- The cache builder stores, for every known vertex id, exactly the
computed neighborhood. -/
theorem constructNeighborsCache_get (st : Network) (o : Bool) (v : BaseId)
    (hv : v ∈ mapKeys st.vertices)
    (hid : ∀ p ∈ st.vertices, p.2.id = p.1) :
    mapGet (constructNeighborsCache st o).neighbors_cache v =
      some (cacheEntry st.vertices st.edges v o) := by
  obtain ⟨p, hp, hpk⟩ := List.mem_map.1 hv
  exact cncFold_get o st.vertices st.edges v st.vertices st rfl rfl
    (Or.inl ⟨p, hp, by rw [hid p hp]; exact hpk⟩)

/-- The relaxation fold preserves the loop invariant when every processed
neighbor is edge-connected to the current vertex. -/
theorem relaxFold_inv (E : JMap Edge) (K : List BaseId) (cur : BaseId) :
    ∀ (vs : List (BaseId × ℚ)) (st : Network) (queue : List BaseId),
      dLoopInv E K st queue →
      (∀ x ∈ vs, EdgeConn E cur x.1) →
      dLoopInv E K (vs.foldl (relaxStep cur) (st, queue)).1
        (vs.foldl (relaxStep cur) (st, queue)).2
  | [], _, _, hInv, _ => hInv
  | vo :: rest, st, queue, hInv, hconn => by
    obtain ⟨hdir, hE, hK, hid, hpred, hcache, hq⟩ := hInv
    obtain ⟨pe, pdir, pcached, pcache, pkeys, pids, ppred, phas⟩ :=
      update_distances_parts st cur vo.1 vo.2
    have hbase : (update_distances st cur vo.1 vo.2).1.is_directed = false ∧
        (update_distances st cur vo.1 vo.2).1.edges = E ∧
        mapKeys (update_distances st cur vo.1 vo.2).1.vertices = K ∧
        (∀ p ∈ (update_distances st cur vo.1 vo.2).1.vertices, p.2.id = p.1) ∧
        (∀ id vid,
          mapGet (update_distances st cur vo.1 vo.2).1.predecessor id
            = some (some vid) → EdgeConn E id vid) ∧
        ((update_distances st cur vo.1 vo.2).1.neighbors_cached = true →
          ∀ v ∈ K, ∀ l,
            mapGet (update_distances st cur vo.1 vo.2).1.neighbors_cache v
              = some l → ∀ x ∈ l, EdgeConn E v x.1) := by
      refine ⟨by rw [pdir]; exact hdir, by rw [pe]; exact hE,
        by rw [pkeys]; exact hK, pids hid, ?_, ?_⟩
      · intro id vid hp
        rcases ppred id vid hp with ⟨h1, h2⟩ | hp'
        · rw [h1, h2]
          exact EdgeConn_symm (hconn vo (List.mem_cons_self _ _))
        · exact hpred id vid hp'
      · intro hcflag v hvK l hl x hx
        rw [pcached] at hcflag
        rw [pcache] at hl
        exact hcache hcflag v hvK l hl x hx
    have hstep : dLoopInv E K (relaxStep cur (st, queue) vo).1
        (relaxStep cur (st, queue) vo).2 := by
      unfold relaxStep
      by_cases hupd : (update_distances st cur vo.1 vo.2).2 = true
      · rw [if_pos hupd]
        refine ⟨hbase.1, hbase.2.1, hbase.2.2.1, hbase.2.2.2.1,
          hbase.2.2.2.2.1, hbase.2.2.2.2.2, ?_⟩
        intro q hq'
        rcases List.mem_append.1 hq' with h | h
        · exact hq q h
        · rw [List.mem_singleton.1 h, ← hK]
          exact (mapHas_iff_mem_keys _ _).1 (phas hupd)
      · rw [if_neg hupd]
        exact ⟨hbase.1, hbase.2.1, hbase.2.2.1, hbase.2.2.2.1,
          hbase.2.2.2.2.1, hbase.2.2.2.2.2, hq⟩
    exact relaxFold_inv E K cur rest _ _ hstep
      (fun x hx => hconn x (List.mem_cons_of_mem _ hx))

/-- The dijkstra main loop preserves the state part of the invariant. -/
theorem dijkstraLoop_inv (E : JMap Edge) (K : List BaseId) :
    ∀ (fuel : Nat) (st : Network) (queue : List BaseId) (st' : Network),
      dijkstraLoop fuel st queue = .ok st' →
      dLoopInv E K st queue →
      (st'.is_directed = false ∧ st'.edges = E ∧
       mapKeys st'.vertices = K ∧ (∀ p ∈ st'.vertices, p.2.id = p.1) ∧
       (∀ id vid, mapGet st'.predecessor id = some (some vid) →
         EdgeConn E id vid))
  | 0, _, _, _, hok, _ => by cases hok
  | fuel+1, st, queue, st', hok, hInv => by
    unfold dijkstraLoop at hok
    cases hpop : popMin st queue with
    | none =>
      rw [hpop] at hok
      injection hok with hok
      subst hok
      exact ⟨hInv.1, hInv.2.1, hInv.2.2.1, hInv.2.2.2.1, hInv.2.2.2.2.1⟩
    | some pr =>
      obtain ⟨cur, rest⟩ := pr
      rw [hpop] at hok
      dsimp only at hok
      obtain ⟨hcurq, hrest⟩ := popMin_spec st queue cur rest hpop
      obtain ⟨hdir, hE, hK, hid, hpred, hcache, hqK⟩ := hInv
      have hcurK : cur ∈ K := hqK cur hcurq
      cases hcached : st.neighbors_cached with
      | true =>
        have hen : edge_neighbors st cur (!st.is_directed)
            = (st, mapGet st.neighbors_cache cur) := by
          unfold edge_neighbors
          rw [hcached]
          rfl
        rw [hen] at hok
        cases hget : mapGet st.neighbors_cache cur with
        | none => rw [hget] at hok; cases hok
        | some voisins =>
          rw [hget] at hok
          have hconn : ∀ x ∈ voisins, EdgeConn E cur x.1 :=
            hcache hcached cur hcurK voisins hget
          have hInv2 : dLoopInv E K st rest :=
            ⟨hdir, hE, hK, hid, hpred, hcache, fun q hq => hqK q (hrest q hq)⟩
          exact dijkstraLoop_inv E K fuel _ _ st' hok
            (relaxFold_inv E K cur voisins st rest hInv2 hconn)
      | false =>
        have hen : edge_neighbors st cur (!st.is_directed)
            = (constructNeighborsCache st (!st.is_directed),
               mapGet (constructNeighborsCache st (!st.is_directed)).neighbors_cache cur) := by
          unfold edge_neighbors
          rw [hcached]
          rfl
        rw [hen] at hok
        have hget := constructNeighborsCache_get st (!st.is_directed) cur
          (by rw [hK]; exact hcurK) hid
        rw [hget] at hok
        have hconn : ∀ x ∈ cacheEntry st.vertices st.edges cur (!st.is_directed),
            EdgeConn E cur x.1 := by
          rw [← hE]
          exact cacheEntry_conn st.vertices st.edges cur (!st.is_directed) hid
        have hInvb : dLoopInv E K (constructNeighborsCache st (!st.is_directed)) rest := by
          refine ⟨?_, ?_, ?_, ?_, ?_, ?_, fun q hq => hqK q (hrest q hq)⟩
          · exact (cncFold_is_directed (!st.is_directed) st.vertices st).trans hdir
          · exact (cncFold_edges (!st.is_directed) st.vertices st).trans hE
          · rw [show (constructNeighborsCache st (!st.is_directed)).vertices
                = st.vertices from cncFold_vertices _ _ _]
            exact hK
          · rw [show (constructNeighborsCache st (!st.is_directed)).vertices
                = st.vertices from cncFold_vertices _ _ _]
            exact hid
          · rw [show (constructNeighborsCache st (!st.is_directed)).predecessor
                = st.predecessor from cncFold_predecessor _ _ _]
            exact hpred
          · intro _ v hvK l hl x hx
            rw [constructNeighborsCache_get st (!st.is_directed) v
              (by rw [hK]; exact hvK) hid] at hl
            injection hl with hl
            rw [← hl] at hx
            have := cacheEntry_conn st.vertices st.edges v (!st.is_directed) hid x hx
            rw [← hE]
            exact this
        exact dijkstraLoop_inv E K fuel _ _ st' hok
          (relaxFold_inv E K cur _ _ rest hInvb hconn)

/-- An edge recorded between the pair makes `edgeBetween` (undirected) find
some edge. -/
theorem edgeBetween_of_conn (net : Network) (a b : BaseId)
    (h : EdgeConn net.edges a b) :
    (edgeBetween net a b false).isSome = true := by
  obtain ⟨p, hp, hcase⟩ := h
  unfold edgeBetween
  rw [List.find?_isSome]
  refine ⟨p.2, List.mem_map_of_mem _ hp, ?_⟩
  unfold checkEdgeIsSame
  rcases hcase with ⟨h1, h2⟩ | ⟨h1, h2⟩
  · simp [h1, h2]
  · simp [h1, h2]

/-- A missing start vertex makes `dijkstra` throw. -/
theorem dijkstra_err_start (g : Network) (start finish : BaseId) (fuel : Nat)
    (hs : hasVertex g start = false) :
    dijkstra g start finish fuel
      = .error (.INEXISTENT_START_VERTICE start) := by
  unfold dijkstra
  simp [show hasVertex { g with predecessor := ([] : JMap (Option BaseId)) } start
    = false from hs]

/-- A missing end vertex makes `dijkstra` throw. -/
theorem dijkstra_err_finish (g : Network) (start finish : BaseId) (fuel : Nat)
    (hs : hasVertex g start = true) (hf : hasVertex g finish = false) :
    dijkstra g start finish fuel
      = .error (.INEXISTENT_END_VERTICE finish) := by
  unfold dijkstra
  simp [show hasVertex { g with predecessor := ([] : JMap (Option BaseId)) } start
    = true from hs,
    show hasVertex { g with predecessor := ([] : JMap (Option BaseId)) } finish
    = false from hf]

/-- With both endpoints present, `dijkstra` is initialisation followed by
the tail. -/
theorem dijkstra_eq_tail (g : Network) (start finish : BaseId) (fuel : Nat)
    (sv : Vertex) (hs : hasVertex g start = true)
    (hf : hasVertex g finish = true)
    (hgs : mapGet (value_a_infini
        { g with predecessor := ([] : JMap (Option BaseId)) }).vertices start
      = some sv) :
    dijkstra g start finish fuel
      = dijkstraTail (dijkstraInit g start sv) start finish fuel := by
  unfold dijkstra
  simp only [show hasVertex { g with predecessor := ([] : JMap (Option BaseId)) } start
      = true from hs,
    show hasVertex { g with predecessor := ([] : JMap (Option BaseId)) } finish
      = true from hf,
    Bool.and_self, Bool.not_true]
  rw [if_neg (by simp)]
  rw [hgs]
  rfl

/-- Every vertex entry processed by `getPredecesseursAux` on an undirected
network whose recorded predecessors all correspond to edges produces a
`START` or an arrow line in the successful output (and the accumulator is
kept). -/
theorem getPredAux_covers (net : Network) (pred : JMap (Option BaseId))
    (hdir : net.is_directed = false)
    (hconn : ∀ id vid, mapGet pred id = some (some vid) →
      EdgeConn net.edges id vid) :
    ∀ (l : List (BaseId × Vertex)) (acc resu : List String),
      getPredecesseursAux net pred l acc = .ok resu →
      (∀ s ∈ acc, s ∈ resu) ∧
      ∀ p ∈ l, (s!"{p.1} START") ∈ resu ∨
        ∃ (pid : BaseId) (w : String), (s!"{p.1} <- {pid} ({w})") ∈ resu
  | [], acc, resu, hok => by
    unfold getPredecesseursAux at hok
    injection hok with hok
    subst hok
    exact ⟨fun s hs => hs, fun p hp => absurd hp (List.not_mem_nil p)⟩
  | p :: rest, acc, resu, hok => by
    unfold getPredecesseursAux at hok
    dsimp only at hok
    cases hg : mapGet pred p.1 with
    | none => rw [hg] at hok; cases hok
    | some o =>
      rw [hg] at hok
      cases o with
      | none =>
        dsimp only at hok
        obtain ⟨hsub, hcov⟩ := getPredAux_covers net pred hdir hconn rest _ resu hok
        refine ⟨fun s hs => hsub s (List.mem_append.2 (Or.inl hs)), ?_⟩
        intro q hq
        rcases List.mem_cons.1 hq with rfl | hq'
        · exact Or.inl (hsub _ (List.mem_append.2
            (Or.inr (List.mem_singleton.2 rfl))))
        · exact hcov q hq'
      | some vid =>
        dsimp only at hok
        cases hv : mapGet net.vertices vid with
        | none => rw [hv] at hok; cases hok
        | some v =>
          rw [hv] at hok
          dsimp only at hok
          have hsome := edgeBetween_of_conn net p.1 vid (hconn p.1 vid hg)
          cases he : edgeBetween net p.1 vid net.is_directed with
          | none =>
            rw [hdir] at he
            rw [he] at hsome
            cases hsome
          | some e =>
            rw [he] at hok
            dsimp only at hok
            obtain ⟨hsub, hcov⟩ :=
              getPredAux_covers net pred hdir hconn rest _ resu hok
            refine ⟨fun s hs => hsub s (List.mem_append.2 (Or.inl hs)), ?_⟩
            intro q hq
            rcases List.mem_cons.1 hq with rfl | hq'
            · exact Or.inr ⟨vid, numToString (qAdd v.weight e.weight),
                hsub _ (List.mem_append.2
                  (Or.inr (List.mem_singleton.2 rfl)))⟩
            · exact hcov q hq'

/-- C7 amended: on an undirected graph with a stale neighbor cache and
key-equals-id vertex entries, whenever `dijkstra(start, end)` returns, the
returned state keeps the original vertex keys and its `predecessors` array
contains, for every vertex of the graph, either `"<id> START"` or
`"<id> <- <pid> (<w>)"`. -/
theorem dijkstra_predecessors_complete_undirected
    (g : Network) (start finish : BaseId) (fuel : Nat)
    (st : Network) (res : DijkstraResult)
    (hdir : g.is_directed = false)
    (hc : g.neighbors_cached = false)
    (hid : ∀ p ∈ g.vertices, p.2.id = p.1)
    (hok : dijkstra g start finish fuel = .ok (st, res)) :
    mapKeys st.vertices = mapKeys g.vertices ∧
    ∀ p ∈ st.vertices,
      (s!"{p.1} START") ∈ res.predecessors ∨
      ∃ (pid : BaseId) (w : String),
        (s!"{p.1} <- {pid} ({w})") ∈ res.predecessors := by
  by_cases hs : hasVertex g start = true
  case neg =>
    have hs' : hasVertex g start = false := by
      revert hs; cases hasVertex g start <;> simp
    rw [dijkstra_err_start g start finish fuel hs'] at hok
    cases hok
  case pos =>
  by_cases hf : hasVertex g finish = true
  case neg =>
    have hf' : hasVertex g finish = false := by
      revert hf; cases hasVertex g finish <;> simp
    rw [dijkstra_err_finish g start finish fuel hs hf'] at hok
    cases hok
  case pos =>
  have hkeys := (value_a_infini_parts
    { g with predecessor := ([] : JMap (Option BaseId)) }).2.2.2.2.1
  have hsI : mapHas (value_a_infini
      { g with predecessor := ([] : JMap (Option BaseId)) }).vertices start
      = true := by
    rw [mapHas_iff_mem_keys, hkeys]
    exact (mapHas_iff_mem_keys _ _).1 hs
  obtain ⟨sv, hgs⟩ := Option.isSome_iff_exists.1
    ((mapGet_isSome_iff _ start).2 hsI)
  rw [dijkstra_eq_tail g start finish fuel sv hs hf hgs] at hok
  unfold dijkstraTail at hok
  split at hok
  · cases hok
  · rename_i stL hloop
    split at hok
    · cases hok
    · rename_i resu hgp
      split at hok
      · cases hok
      · rename_i chemin hap
        injection hok with hok
        injection hok with h1 h2
        subst h1
        subst h2
        have hstartK : start ∈ mapKeys g.vertices :=
          (mapHas_iff_mem_keys _ _).1 hs
        have hidI : ∀ p ∈ (value_a_infini
            { g with predecessor := ([] : JMap (Option BaseId)) }).vertices,
            p.2.id = p.1 :=
          (value_a_infini_parts _).2.2.2.2.2 hid
        have hInv : dLoopInv g.edges (mapKeys g.vertices)
            (dijkstraInit g start sv) [start] := by
          refine ⟨?_, ?_, ?_, ?_, ?_, ?_, ?_⟩
          · exact ((value_a_infini_parts
              { g with predecessor := ([] : JMap (Option BaseId)) }).2.1).trans hdir
          · exact (value_a_infini_parts
              { g with predecessor := ([] : JMap (Option BaseId)) }).1
          · show mapKeys (mapSet (value_a_infini
                { g with predecessor := ([] : JMap (Option BaseId)) }).vertices
                start { sv with weight := 0 }) = mapKeys g.vertices
            rw [mapKeys_mapSet_of_has _ _ _ hsI]
            exact hkeys
          · show ∀ p ∈ mapSet (value_a_infini
                { g with predecessor := ([] : JMap (Option BaseId)) }).vertices
                start { sv with weight := 0 }, p.2.id = p.1
            refine mapSet_forall _ _ _ _ hidI ?_
            show sv.id = start
            exact mapGet_id _ hidI start sv hgs
          · intro id vid h
            have hpm : (dijkstraInit g start sv).predecessor
                = [(start, (none : Option BaseId))] := rfl
            rw [hpm] at h
            unfold mapGet at h
            by_cases hbe : ((start : BaseId) == id) = true
            · rw [List.find?_cons_of_pos _ (by exact hbe)] at h
              cases h
            · rw [List.find?_cons_of_neg _ (by exact hbe)] at h
              cases h
          · intro hfl
            rw [show (dijkstraInit g start sv).neighbors_cached
                = g.neighbors_cached from (value_a_infini_parts _).2.2.1] at hfl
            rw [hc] at hfl
            cases hfl
          · intro q hq
            rw [List.mem_singleton] at hq
            rw [hq]
            exact hstartK
        obtain ⟨hLdir, hLE, hLK, hLid, hLpred⟩ :=
          dijkstraLoop_inv g.edges (mapKeys g.vertices) fuel
            (dijkstraInit g start sv) [start] stL hloop hInv
        unfold getPredecesseurs at hgp
        have hcov := (getPredAux_covers stL stL.predecessor hLdir
          (fun id vid h => by rw [hLE]; exact hLpred id vid h)
          stL.vertices [] resu hgp).2
        exact ⟨hLK, hcov⟩

theorem dijkstra_predecessors_complete_undirected_witness :
    gC7u.is_directed = false ∧
    (mapKeys stC7u.vertices = mapKeys gC7u.vertices ∧
     ∀ p ∈ stC7u.vertices,
       (s!"{p.1} START") ∈ resC7u.predecessors ∨
       ∃ (pid : BaseId) (w : String),
         (s!"{p.1} <- {pid} ({w})") ∈ resC7u.predecessors) :=
  ⟨rfl, dijkstra_predecessors_complete_undirected gC7u (.str "a") (.str "b")
    10 stC7u resC7u rfl rfl (by decide) (by rfl)⟩

/-! ## C3 amended: machinery -/

/-- `mapSet` on an absent key appends. -/
theorem mapSet_not_has {β : Type} (m : JMap β) (k : BaseId) (v : β)
    (h : mapHas m k = false) : mapSet m k v = m ++ [(k, v)] := by
  simp [mapSet, h]

/-- No stored edge matches the pair, so `hasEdge` is `false`. -/
theorem hasEdge_false_of (net : Network) (f t : BaseId)
    (h : ∀ q ∈ net.edges,
      checkEdgeIsSame (q.2.from', q.2.to') (f, t) false = false) :
    hasEdge net f t false = false := by
  unfold hasEdge edge_list
  refine List.any_eq_false.2 ?_
  intro e he
  obtain ⟨q, hq, rfl⟩ := List.mem_map.1 he
  simp [h q hq]

/-- `addVertex` on success appends the fresh vertex and touches neither the
edges nor the flags. -/
theorem addVertex_ok_parts (net : Network) (args : VertexArgs)
    (net' : Network) (n : Nat) (hok : addVertex net args = (net', .ok n)) :
    net'.edges = net.edges ∧
    net'.is_multigraph = net.is_multigraph ∧
    net'.vertices = net.vertices ++
      [(args.id, ⟨args.id, args.weight.getD 1⟩)] := by
  unfold addVertex at hok
  split at hok
  · injection hok with h1 h2; cases h2
  · split at hok
    · injection hok with h1 h2; cases h2
    · rename_i hhas
      have hhas' : mapHas net.vertices args.id = false := by
        revert hhas; cases mapHas net.vertices args.id <;> simp
      injection hok with h1 h2
      subst h1
      refine ⟨rfl, rfl, ?_⟩
      show mapSet net.vertices args.id _ = _
      rw [mapSet_not_has _ _ _ hhas']

/-- `addEdgeFinish` with no duplicate present: the edge is stored under the
given id, the vertices are untouched. -/
theorem addEdgeFinish_parts (net : Network) (f t id' : BaseId) (w : ℚ)
    (net' : Network) (b : Bool)
    (hok : addEdgeFinish net f t id' w = (net', .ok b))
    (hmult : net.is_multigraph = false)
    (hdup : hasEdge net f t false = false) :
    net'.edges = mapSet net.edges id' ⟨f, t, w⟩ ∧
    net'.vertices = net.vertices ∧
    net'.is_multigraph = false := by
  unfold addEdgeFinish at hok
  rw [hmult, hdup] at hok
  rw [if_neg (by decide)] at hok
  injection hok with h1 h2
  subst h1
  exact ⟨rfl, rfl, rfl⟩

/-- Common tail of the forced `addEdge` paths: `addEdgeFinish` on a state
that extends the base vertices only by endpoint vertices. -/
theorem addEdgeFinish_from_base (base c₂ : Network) (args : EdgeArgs)
    (i : BaseId) (net' : Network) (b : Bool) (ext : JMap Vertex)
    (hok : addEdgeFinish c₂ args.from' args.to' i (args.weight.getD 1)
      = (net', .ok b))
    (hE : c₂.edges = base.edges)
    (hV : c₂.vertices = base.vertices ++ ext)
    (hext : ∀ p ∈ ext, p.1 = args.from' ∨ p.1 = args.to')
    (hnd2 : (mapKeys base.vertices).Nodup → (mapKeys c₂.vertices).Nodup)
    (hm : c₂.is_multigraph = false)
    (hdup : hasEdge base args.from' args.to' false = false) :
    net'.edges = mapSet base.edges i
      ⟨args.from', args.to', args.weight.getD 1⟩ ∧
    net'.is_multigraph = false ∧
    (∀ k ∈ mapKeys net'.vertices,
      k ∈ mapKeys base.vertices ∨ k = args.from' ∨ k = args.to') ∧
    (∀ k ∈ mapKeys base.vertices, k ∈ mapKeys net'.vertices) ∧
    ((mapKeys base.vertices).Nodup → (mapKeys net'.vertices).Nodup) := by
  have hdup₂ : hasEdge c₂ args.from' args.to' false = false :=
    (hasEdge_congr c₂ base args.from' args.to' false hE).trans hdup
  obtain ⟨hfe, hfv, hfm⟩ := addEdgeFinish_parts c₂ args.from' args.to' i
    (args.weight.getD 1) net' b hok hm hdup₂
  refine ⟨by rw [hfe, hE], hfm, ?_, ?_, ?_⟩
  · intro k hk
    rw [hfv, hV] at hk
    unfold mapKeys at hk
    rw [List.map_append, List.mem_append] at hk
    rcases hk with hk | hk
    · exact Or.inl hk
    · obtain ⟨p, hp, rfl⟩ := List.mem_map.1 hk
      exact Or.inr (hext p hp)
  · intro k hk
    rw [hfv, hV]
    unfold mapKeys
    rw [List.map_append, List.mem_append]
    exact Or.inl hk
  · intro hnd
    rw [hfv]
    exact hnd2 hnd

/-- `mapKeys` distributes over append. -/
theorem mapKeys_append {β : Type} (m₁ m₂ : JMap β) :
    mapKeys (m₁ ++ m₂) = mapKeys m₁ ++ mapKeys m₂ := List.map_append _ _ _

/-- Appending one entry under a fresh key keeps the keys duplicate-free. -/
theorem nodup_keys_append_one {β : Type} (m : JMap β) (k : BaseId) (v : β)
    (hnd : (mapKeys m).Nodup) (hk : mapHas m k = false) :
    (mapKeys (m ++ [(k, v)])).Nodup := by
  rw [mapKeys_append, List.nodup_append]
  refine ⟨hnd, List.nodup_singleton k, ?_⟩
  intro a ha hb
  have hb' : a = k := List.mem_singleton.1 hb
  subst hb'
  exact absurd ((mapHas_iff_mem_keys _ _).2 ha) (by rw [hk]; decide)

/-- The forced `addEdge` body on success (fresh id, no duplicate pair, a
default-`true` `do_force`): the edge is stored, endpoint vertices are
auto-created at most once each. -/
theorem addEdgeResolved_copy_ok (net : Network) (args : EdgeArgs) (i : BaseId)
    (net' : Network) (b : Bool)
    (hok : addEdgeResolved net args i = (net', .ok b))
    (hmult : net.is_multigraph = false)
    (hforce : args.do_force.getD true = true)
    (hdup : hasEdge net args.from' args.to' false = false) :
    net'.edges = mapSet net.edges i
      ⟨args.from', args.to', args.weight.getD 1⟩ ∧
    net'.is_multigraph = false ∧
    (∀ k ∈ mapKeys net'.vertices,
      k ∈ mapKeys net.vertices ∨ k = args.from' ∨ k = args.to') ∧
    (∀ k ∈ mapKeys net.vertices, k ∈ mapKeys net'.vertices) ∧
    ((mapKeys net.vertices).Nodup → (mapKeys net'.vertices).Nodup) := by
  unfold addEdgeResolved at hok
  dsimp only at hok
  rw [hforce] at hok
  split at hok
  · injection hok with h1 h2; cases h2
  · split at hok
    · injection hok with h1 h2; cases h2
    · split at hok
      · injection hok with h1 h2; cases h2
      · rw [if_neg (by decide)] at hok
        by_cases hvf : mapHas net.vertices args.from' = true
        · rw [if_neg (not_not_intro hvf)] at hok
          dsimp only at hok
          by_cases hvt : mapHas net.vertices args.to' = true
          · rw [if_neg (not_not_intro hvt)] at hok
            dsimp only at hok
            exact addEdgeFinish_from_base net _ args i net' b [] hok rfl
              (List.append_nil _).symm (fun p hp => absurd hp (List.not_mem_nil p))
              (fun h => h) hmult hdup
          · rw [if_pos hvt] at hok
            cases hAV : addVertex { net with neighbors_cached := false }
                { id := args.to' } with
            | mk n₂ r₁ =>
              rw [hAV] at hok
              dsimp only at hok
              cases r₁ with
              | error e => injection hok with h1 h2; cases h2
              | ok m =>
                obtain ⟨he₂, hm₂, hv₂⟩ := addVertex_ok_parts _ _ _ _ hAV
                have hvt' : mapHas net.vertices args.to' = false := by
                  revert hvt; cases mapHas net.vertices args.to' <;> simp
                refine addEdgeFinish_from_base net n₂ args i net' b
                  [(args.to', ⟨args.to', 1⟩)] hok he₂ hv₂
                  (fun p hp => Or.inr (by rw [List.mem_singleton.1 hp]))
                  ?_ (hm₂.trans hmult) hdup
                intro hnd
                rw [hv₂]
                exact nodup_keys_append_one _ _ _ hnd hvt'
        · rw [if_pos hvf] at hok
          cases hAV : addVertex { net with neighbors_cached := false }
              { id := args.from' } with
          | mk n₂ r₁ =>
            rw [hAV] at hok
            dsimp only at hok
            cases r₁ with
            | error e => injection hok with h1 h2; cases h2
            | ok m =>
              obtain ⟨he₂, hm₂, hv₂⟩ := addVertex_ok_parts _ _ _ _ hAV
              have hvf' : mapHas net.vertices args.from' = false := by
                revert hvf; cases mapHas net.vertices args.from' <;> simp
              have hndf : (mapKeys net.vertices).Nodup →
                  (mapKeys n₂.vertices).Nodup := by
                intro hnd
                rw [hv₂]
                exact nodup_keys_append_one _ _ _ hnd hvf'
              by_cases hvt : mapHas n₂.vertices args.to' = true
              · rw [if_neg (not_not_intro hvt)] at hok
                dsimp only at hok
                exact addEdgeFinish_from_base net n₂ args i net' b
                  [(args.from', ⟨args.from', 1⟩)] hok he₂ hv₂
                  (fun p hp => Or.inl (by rw [List.mem_singleton.1 hp]))
                  hndf (hm₂.trans hmult) hdup
              · rw [if_pos hvt] at hok
                cases hAV2 : addVertex n₂ { id := args.to' } with
                | mk n₃ r₂ =>
                  rw [hAV2] at hok
                  dsimp only at hok
                  cases r₂ with
                  | error e => injection hok with h1 h2; cases h2
                  | ok m2 =>
                    obtain ⟨he₃, hm₃, hv₃⟩ := addVertex_ok_parts _ _ _ _ hAV2
                    have hvt' : mapHas n₂.vertices args.to' = false := by
                      revert hvt; cases mapHas n₂.vertices args.to' <;> simp
                    refine addEdgeFinish_from_base net n₃ args i net' b
                      [(args.from', ⟨args.from', 1⟩), (args.to', ⟨args.to', 1⟩)]
                      hok (he₃.trans he₂) ?_ ?_ ?_
                      ((hm₃.trans hm₂).trans hmult) hdup
                    · rw [hv₃, hv₂, List.append_assoc]
                      rfl
                    · intro p hp
                      rcases List.mem_cons.1 hp with rfl | hp'
                      · exact Or.inl rfl
                      · exact Or.inr (by rw [List.mem_singleton.1 hp'])
                    · intro hnd
                      rw [hv₃]
                      exact nodup_keys_append_one _ _ _ (hndf hnd) hvt'

/-- `addEdge` as `copy` calls it (no pre-set id) on success: the edge is
appended with its original endpoints and weight. -/
theorem addEdge_copy_ok (net : Network) (e : Edge) (net' : Network) (b : Bool)
    (hok : addEdge net (Edge.args e) = (net', .ok b))
    (hmult : net.is_multigraph = false)
    (hdup : hasEdge net e.from' e.to' false = false) :
    (∃ nid, net'.edges = net.edges ++ [(nid, ⟨e.from', e.to', e.weight⟩)]) ∧
    net'.is_multigraph = false ∧
    (∀ k ∈ mapKeys net'.vertices,
      k ∈ mapKeys net.vertices ∨ k = e.from' ∨ k = e.to') ∧
    (∀ k ∈ mapKeys net.vertices, k ∈ mapKeys net'.vertices) ∧
    ((mapKeys net.vertices).Nodup → (mapKeys net'.vertices).Nodup) := by
  unfold addEdge at hok
  have hfree := (newEID_spec net).1
  have hsnd := (newEID_spec net).2
  rw [show (Edge.args e).id = none from rfl] at hok
  dsimp only at hok
  rw [hsnd] at hok
  have hres := addEdgeResolved_copy_ok { net with free_eid := net.free_eid + 1 }
    (Edge.args e) (.num ((newEID net).1 : Int)) net' b hok hmult rfl
    ((hasEdge_congr _ net e.from' e.to' false rfl).trans hdup)
  obtain ⟨h1, h2, h3, h4, h5⟩ := hres
  refine ⟨⟨.num ((newEID net).1 : Int), ?_⟩, h2, h3, h4, h5⟩
  rw [h1]
  show mapSet net.edges _ _ = _
  rw [mapSet_not_has _ _ _ hfree]
  rfl

/-- A thrown error is carried unchanged through the rest of the
`addEdgeMap` fold. -/
theorem aemFold_error (l : List (BaseId × Edge)) (n : Network) (e : NetErr) :
    l.foldl aemStep (n, .error e) = (n, .error e) := by
  induction l with
  | nil => rfl
  | cons p rest ih =>
    show rest.foldl aemStep (aemStep (n, .error e) p) = _
    rw [show aemStep (n, .error e) p = (n, .error e) from rfl]
    exact ih

/-- The `addEdgeMap` fold on success rebuilds exactly the `(from, to,
weight)` sequence of its input (given pairwise-distinct unordered endpoint
pairs) and only ever creates endpoint vertices. -/
theorem aemFold_ok :
    ∀ (l : List (BaseId × Edge)) (acc c' : Network),
      l.foldl aemStep (acc, .ok ()) = (c', .ok ()) →
      acc.is_multigraph = false →
      List.Pairwise (fun p q =>
        checkEdgeIsSame (p.2.from', p.2.to') (q.2.from', q.2.to') false
          = false) l →
      (∀ p ∈ l, ∀ q ∈ acc.edges,
        checkEdgeIsSame (q.2.from', q.2.to') (p.2.from', p.2.to') false
          = false) →
      c'.edges.map edgeTriple = acc.edges.map edgeTriple ++ l.map edgeTriple ∧
      c'.is_multigraph = false ∧
      (∀ k ∈ mapKeys c'.vertices, k ∈ mapKeys acc.vertices ∨
        ∃ p ∈ l, k = p.2.from' ∨ k = p.2.to') ∧
      (∀ k ∈ mapKeys acc.vertices, k ∈ mapKeys c'.vertices) ∧
      ((mapKeys acc.vertices).Nodup → (mapKeys c'.vertices).Nodup)
  | [], acc, c', hok, hm, _, _ => by
    injection hok with h1 h2
    subst h1
    exact ⟨(List.append_nil _).symm, hm, fun k hk => Or.inl hk,
      fun k hk => hk, fun h => h⟩
  | p :: rest, acc, c', hok, hm, hpw, hcross => by
    have hfold : rest.foldl aemStep (aemStep (acc, .ok ()) p)
        = (c', .ok ()) := hok
    cases hAE : addEdge acc (Edge.args p.2) with
    | mk n₁ r₁ =>
      cases r₁ with
      | error e =>
        have hstep : aemStep (acc, .ok ()) p = (n₁, .error e) := by
          show (match addEdge acc (Edge.args p.2) with
            | (net', Except.error e) => (net', Except.error e)
            | (net', Except.ok _) => (net', Except.ok ())) = _
          rw [hAE]
        rw [hstep, aemFold_error] at hfold
        injection hfold with h1 h2
        cases h2
      | ok bb =>
        have hstep : aemStep (acc, .ok ()) p = (n₁, .ok ()) := by
          show (match addEdge acc (Edge.args p.2) with
            | (net', Except.error e) => (net', Except.error e)
            | (net', Except.ok _) => (net', Except.ok ())) = _
          rw [hAE]
        rw [hstep] at hfold
        have hdup : hasEdge acc p.2.from' p.2.to' false = false :=
          hasEdge_false_of acc _ _ (hcross p (List.mem_cons_self _ _))
        obtain ⟨⟨nid, hE⟩, hm₁, hsub, hsup, hnd₁⟩ :=
          addEdge_copy_ok acc p.2 n₁ bb hAE hm hdup
        have hcross' : ∀ pe ∈ rest, ∀ q ∈ n₁.edges,
            checkEdgeIsSame (q.2.from', q.2.to') (pe.2.from', pe.2.to') false
              = false := by
          intro pe hpe q hq
          rw [hE] at hq
          rcases List.mem_append.1 hq with hq | hq
          · exact hcross pe (List.mem_cons_of_mem _ hpe) q hq
          · rw [List.mem_singleton.1 hq]
            exact (List.pairwise_cons.1 hpw).1 pe hpe
        obtain ⟨ihE, ihm, ihsub, ihsup, ihnd⟩ :=
          aemFold_ok rest n₁ c' hfold hm₁ (List.pairwise_cons.1 hpw).2 hcross'
        refine ⟨?_, ihm, ?_, ?_, fun hnd => ihnd (hnd₁ hnd)⟩
        · rw [ihE, hE, List.map_append, List.append_assoc]
          rfl
        · intro k hk
          rcases ihsub k hk with hk' | ⟨pe, hpe, hor⟩
          · rcases hsub k hk' with h | h
            · exact Or.inl h
            · exact Or.inr ⟨p, List.mem_cons_self _ _, h⟩
          · exact Or.inr ⟨pe, List.mem_cons_of_mem _ hpe, hor⟩
        · intro k hk
          exact ihsup k (hsup k hk)

/-- Membership in the keys after a `mapSet`. -/
theorem mapKeys_mapSet_mem {β : Type} (m : JMap β) (k0 : BaseId) (v : β)
    (k : BaseId) :
    k ∈ mapKeys (mapSet m k0 v) ↔ k ∈ mapKeys m ∨ k = k0 := by
  by_cases h : mapHas m k0 = true
  · rw [mapKeys_mapSet_of_has _ _ _ h]
    constructor
    · exact Or.inl
    · rintro (hk | rfl)
      · exact hk
      · exact (mapHas_iff_mem_keys _ _).1 h
  · have h' : mapHas m k0 = false := by revert h; cases mapHas m k0 <;> simp
    rw [mapSet_not_has _ _ _ h', mapKeys_append, List.mem_append]
    constructor
    · rintro (hk | hk)
      · exact Or.inl hk
      · exact Or.inr (List.mem_singleton.1 hk)
    · rintro (hk | rfl)
      · exact Or.inl hk
      · exact Or.inr (List.mem_singleton.2 rfl)

/-- `mapSet` keeps the keys duplicate-free. -/
theorem mapKeys_mapSet_nodup {β : Type} (m : JMap β) (k0 : BaseId) (v : β)
    (hnd : (mapKeys m).Nodup) : (mapKeys (mapSet m k0 v)).Nodup := by
  by_cases h : mapHas m k0 = true
  · rw [mapKeys_mapSet_of_has _ _ _ h]
    exact hnd
  · have h' : mapHas m k0 = false := by revert h; cases mapHas m k0 <;> simp
    rw [mapSet_not_has _ _ _ h']
    exact nodup_keys_append_one _ _ _ hnd h'

/-- A fold of `mapSet`s whose keys avoid `k` leaves the entry of `k`
alone. -/
theorem setFold_get_notmem (k : BaseId) :
    ∀ (l : List (BaseId × Vertex)) (m0 : JMap Vertex),
      k ∉ l.map Prod.fst →
      mapGet (l.foldl (fun m q => mapSet m q.1 q.2) m0) k = mapGet m0 k
  | [], _, _ => rfl
  | q :: rest, m0, hk => by
    have hk1 : q.1 ≠ k := by
      intro h
      exact hk (List.mem_cons.2 (Or.inl h.symm))
    have hk' : k ∉ rest.map Prod.fst := fun h => hk (List.mem_cons.2 (Or.inr h))
    show mapGet (rest.foldl _ (mapSet m0 q.1 q.2)) k = _
    rw [setFold_get_notmem k rest _ hk']
    exact mapGet_mapSet_ne m0 q.1 k q.2 hk1

/-- A fold of `mapSet`s over duplicate-free entries stores every entry. -/
theorem setFold_get :
    ∀ (l : List (BaseId × Vertex)) (m0 : JMap Vertex),
      (l.map Prod.fst).Nodup →
      ∀ p ∈ l, mapGet (l.foldl (fun m q => mapSet m q.1 q.2) m0) p.1 = some p.2
  | [], _, _, p, hp => absurd hp (List.not_mem_nil p)
  | q :: rest, m0, hnd, p, hp => by
    rcases List.mem_cons.1 hp with rfl | hp'
    · have hq1 : p.1 ∉ rest.map Prod.fst := (List.nodup_cons.1 hnd).1
      show mapGet (rest.foldl _ (mapSet m0 p.1 p.2)) p.1 = _
      rw [setFold_get_notmem p.1 rest _ hq1]
      exact mapGet_mapSet_self _ _ _
    · show mapGet (rest.foldl _ (mapSet m0 q.1 q.2)) p.1 = _
      exact setFold_get rest _ (List.nodup_cons.1 hnd).2 p hp'

/-- Key membership after a fold of `mapSet`s. -/
theorem setFold_keys_mem :
    ∀ (l : List (BaseId × Vertex)) (m0 : JMap Vertex) (k : BaseId),
      k ∈ mapKeys (l.foldl (fun m q => mapSet m q.1 q.2) m0) ↔
        k ∈ mapKeys m0 ∨ k ∈ l.map Prod.fst
  | [], m0, k => by simp
  | q :: rest, m0, k => by
    show k ∈ mapKeys (rest.foldl _ (mapSet m0 q.1 q.2)) ↔ _
    rw [setFold_keys_mem rest _ k, mapKeys_mapSet_mem]
    constructor
    · rintro ((hk | rfl) | hk)
      · exact Or.inl hk
      · exact Or.inr (List.mem_cons.2 (Or.inl rfl))
      · exact Or.inr (List.mem_cons.2 (Or.inr hk))
    · rintro (hk | hk)
      · exact Or.inl (Or.inl hk)
      · rcases List.mem_cons.1 hk with rfl | hk'
        · exact Or.inl (Or.inr rfl)
        · exact Or.inr hk'

/-- A fold of `mapSet`s keeps the keys duplicate-free. -/
theorem setFold_keys_nodup :
    ∀ (l : List (BaseId × Vertex)) (m0 : JMap Vertex),
      (mapKeys m0).Nodup →
      (mapKeys (l.foldl (fun m q => mapSet m q.1 q.2) m0)).Nodup
  | [], _, h => h
  | q :: rest, m0, h =>
    setFold_keys_nodup rest (mapSet m0 q.1 q.2) (mapKeys_mapSet_nodup _ _ _ h)

/-- The `addVertexMap` fold only touches the vertices component. -/
theorem avmFold_parts :
    ∀ (l : List (BaseId × Vertex)) (n : Network) (c : Nat),
      (l.foldl (fun (acc : Network × Nat) p =>
        ({ acc.1 with vertices := mapSet acc.1.vertices p.1 p.2 }, acc.2 + 1))
        (n, c)).1.edges = n.edges ∧
      (l.foldl (fun (acc : Network × Nat) p =>
        ({ acc.1 with vertices := mapSet acc.1.vertices p.1 p.2 }, acc.2 + 1))
        (n, c)).1.vertices
        = l.foldl (fun m q => mapSet m q.1 q.2) n.vertices
  | [], _, _ => ⟨rfl, rfl⟩
  | p :: rest, n, c =>
    avmFold_parts rest { n with vertices := mapSet n.vertices p.1 p.2 } (c + 1)

/-- `addVertexMap` on success: the entries are written under their map
keys over the existing vertices; edges are untouched. -/
theorem addVertexMap_ok (net : Network) (V : JMap Vertex) (net' : Network)
    (n : Nat) (hok : addVertexMap net V = (net', .ok n)) :
    net'.edges = net.edges ∧
    net'.vertices = V.foldl (fun m q => mapSet m q.1 q.2) net.vertices := by
  unfold addVertexMap at hok
  split at hok
  · injection hok with h1 h2; cases h2
  · dsimp only at hok
    injection hok with h1 h2
    subst h1
    exact ⟨(avmFold_parts V net 0).1, (avmFold_parts V net 0).2⟩

/-- With duplicate-free keys, every stored entry is the one `mapGet`
finds. -/
theorem mapGet_of_nodup_mem {β : Type} :
    ∀ (m : JMap β), (mapKeys m).Nodup → ∀ p ∈ m, mapGet m p.1 = some p.2
  | [], _, p, hp => absurd hp (List.not_mem_nil p)
  | q :: rest, hnd, p, hp => by
    rcases List.mem_cons.1 hp with rfl | hp'
    · unfold mapGet
      rw [List.find?_cons_of_pos _ (by simp)]
      rfl
    · have hne : q.1 ≠ p.1 := fun h =>
        (List.nodup_cons.1 hnd).1 (h ▸ List.mem_map_of_mem Prod.fst hp')
      show mapGet (q :: rest) p.1 = _
      unfold mapGet
      rw [List.find?_cons_of_neg _ (by simp [hne])]
      exact mapGet_of_nodup_mem rest (List.nodup_cons.1 hnd).2 p hp'

/-- The degree fold only depends on the `(from, to, weight)` projections. -/
theorem degree_fold_congr (id : BaseId) :
    ∀ (l₁ l₂ : List (BaseId × Edge)),
      l₁.map edgeTriple = l₂.map edgeTriple →
      ∀ a : Nat,
        l₁.foldl (fun acc p =>
          if p.2.from' == id || p.2.to' == id then acc + 1 else acc) a
        = l₂.foldl (fun acc p =>
          if p.2.from' == id || p.2.to' == id then acc + 1 else acc) a
  | [], [], _, _ => rfl
  | [], _ :: _, h, _ => by cases h
  | _ :: _, [], h, _ => by cases h
  | p :: l₁, q :: l₂, h, a => by
    rw [List.map_cons, List.map_cons] at h
    injection h with h1 h2
    have hf : p.2.from' = q.2.from' := congrArg (fun t => t.1) h1
    have ht : p.2.to' = q.2.to' := congrArg (fun t => t.2.1) h1
    show l₁.foldl _ (if p.2.from' == id || p.2.to' == id then a + 1 else a) = _
    rw [hf, ht]
    exact degree_fold_congr id l₁ l₂ h2 _

/-- C3 amended: when `copy()` returns (it can instead throw, see the
counterexample), the copy carries the same vertex ids with the original
`Vertex` records and the same `(from, to, weight)` edge sequence, hence
identical vertex/edge counts, `genus`, `max_edges`, `density` and
`degree` — for any well-formed source network (duplicate-free vertex keys,
edge endpoints present, pairwise distinct unordered endpoint pairs). -/
theorem copy_preserves_structure (g c : Network)
    (hnd : (mapKeys g.vertices).Nodup)
    (hends : ∀ p ∈ g.edges, p.2.from' ∈ mapKeys g.vertices ∧
      p.2.to' ∈ mapKeys g.vertices)
    (hpairs : List.Pairwise (fun p q =>
      checkEdgeIsSame (p.2.from', p.2.to') (q.2.from', q.2.to') false
        = false) g.edges)
    (hok : copy g = .ok c) :
    c.edges.map edgeTriple = g.edges.map edgeTriple ∧
    List.Perm (mapKeys c.vertices) (mapKeys g.vertices) ∧
    (∀ k, k ∈ mapKeys g.vertices →
      mapGet c.vertices k = mapGet g.vertices k) ∧
    c.vertices.length = g.vertices.length ∧
    c.edges.length = g.edges.length ∧
    genus c = genus g ∧ maxEdges c = maxEdges g ∧ density c = density g ∧
    ∀ id, degree c id = degree g id := by
  unfold copy at hok
  dsimp only at hok
  cases hA : addEdgeMap (mkNetwork (netArgs g)) g.edges with
  | mk c₁ r₁ =>
    rw [hA] at hok
    cases r₁ with
    | error e => dsimp only at hok; cases hok
    | ok u =>
      dsimp only at hok
      cases hV : addVertexMap c₁ g.vertices with
      | mk c₂ r₂ =>
        rw [hV] at hok
        cases r₂ with
        | error e => dsimp only at hok; cases hok
        | ok m =>
          dsimp only at hok
          injection hok with hok
          subst hok
          cases u
          unfold addEdgeMap at hA
          obtain ⟨htr', _, hsub, _, hnd₁⟩ :=
            aemFold_ok g.edges (mkNetwork (netArgs g)) c₁ hA rfl hpairs
              (fun p _ q hq => absurd hq (List.not_mem_nil q))
          have htr : c₁.edges.map edgeTriple = g.edges.map edgeTriple := by
            rw [htr']
            rfl
          have hsub' : ∀ k ∈ mapKeys c₁.vertices, k ∈ mapKeys g.vertices := by
            intro k hk
            rcases hsub k hk with hk' | ⟨p, hp, hor⟩
            · exact absurd hk' (List.not_mem_nil k)
            · rcases hor with rfl | rfl
              · exact (hends p hp).1
              · exact (hends p hp).2
          have hndc₁ : (mapKeys c₁.vertices).Nodup := hnd₁ List.nodup_nil
          obtain ⟨hE2, hV2⟩ := addVertexMap_ok c₁ g.vertices c₂ m hV
          have htrc : c₂.edges.map edgeTriple = g.edges.map edgeTriple := by
            rw [hE2]
            exact htr
          have hget : ∀ k, k ∈ mapKeys g.vertices →
              mapGet c₂.vertices k = mapGet g.vertices k := by
            intro k hk
            obtain ⟨p, hp, hpk⟩ := List.mem_map.1 hk
            subst hpk
            rw [hV2, setFold_get g.vertices c₁.vertices hnd p hp,
              mapGet_of_nodup_mem g.vertices hnd p hp]
          have hmem : ∀ k, k ∈ mapKeys c₂.vertices ↔ k ∈ mapKeys g.vertices := by
            intro k
            rw [hV2]
            rw [setFold_keys_mem g.vertices c₁.vertices k]
            constructor
            · rintro (hk | hk)
              · exact hsub' k hk
              · exact hk
            · exact Or.inr
          have hndc : (mapKeys c₂.vertices).Nodup := by
            rw [hV2]
            exact setFold_keys_nodup g.vertices c₁.vertices hndc₁
          have hperm : List.Perm (mapKeys c₂.vertices) (mapKeys g.vertices) :=
            (List.perm_ext_iff_of_nodup hndc hnd).2 hmem
          have hlenV : c₂.vertices.length = g.vertices.length := by
            have := hperm.length_eq
            simpa [mapKeys] using this
          have hlenE : c₂.edges.length = g.edges.length := by
            have := congrArg List.length htrc
            simpa using this
          refine ⟨htrc, hperm, hget, hlenV, hlenE, ?_, ?_, ?_, ?_⟩
          · unfold genus
            rw [hlenE, hlenV]
          · unfold maxEdges
            rw [hlenV]
          · unfold density maxEdges
            rw [hlenE, hlenV]
          · intro id
            unfold degree
            exact degree_fold_congr id c₂.edges g.edges htrc 0

theorem copy_preserves_structure_witness :
    (mapKeys gC3w.vertices).Nodup ∧
    copy gC3w = .ok cC3w ∧
    (cC3w.edges.map edgeTriple = gC3w.edges.map edgeTriple ∧
     List.Perm (mapKeys cC3w.vertices) (mapKeys gC3w.vertices) ∧
     (∀ k, k ∈ mapKeys gC3w.vertices →
       mapGet cC3w.vertices k = mapGet gC3w.vertices k) ∧
     cC3w.vertices.length = gC3w.vertices.length ∧
     cC3w.edges.length = gC3w.edges.length ∧
     genus cC3w = genus gC3w ∧ maxEdges cC3w = maxEdges gC3w ∧
     density cC3w = density gC3w ∧
     ∀ id, degree cC3w id = degree gC3w id) :=
  ⟨by decide, by rfl,
    copy_preserves_structure gC3w cC3w (by decide) (by decide) (by decide)
      (by rfl)⟩

/-! ## C10 amended: machinery -/

/-- The undirected edge-pair test, characterized. -/
theorem checkEdgeIsSame_undir_iff (a b : BaseId × BaseId) :
    checkEdgeIsSame a b false = true ↔
      (a.1 = b.1 ∧ a.2 = b.2) ∨ (a.2 = b.1 ∧ a.1 = b.2) := by
  unfold checkEdgeIsSame
  split_ifs with h1 h2
  · simp only [Bool.and_eq_true, beq_iff_eq] at h1
    simp [h1]
  · simp only [Bool.not_false, Bool.and_true, Bool.and_eq_true, beq_iff_eq] at h2
    simp [h2]
  · simp only [Bool.and_eq_true, beq_iff_eq] at h1
    simp only [Bool.not_false, Bool.and_true, Bool.and_eq_true, beq_iff_eq] at h2
    constructor
    · intro h
      cases h
    · rintro (h | h)
      · exact absurd h h1
      · exact absurd h h2

/-- A list of edges with pairwise-distinct unordered endpoint pairs, each
matching the pair of some element of a second list, is no longer than it:
each element consumes a distinct witness. -/
theorem pairs_inj_le :
    ∀ (l₁ l₂ : List (BaseId × Edge)),
      List.Pairwise (fun p q =>
        checkEdgeIsSame (p.2.from', p.2.to') (q.2.from', q.2.to') false
          = false) l₁ →
      (∀ p ∈ l₁, ∃ q ∈ l₂,
        checkEdgeIsSame (p.2.from', p.2.to') (q.2.from', q.2.to') false
          = true) →
      l₁.length ≤ l₂.length
  | [], _, _, _ => Nat.zero_le _
  | p :: t, l₂, hpw, hmatch => by
    obtain ⟨q, hq, hpq⟩ := hmatch p (List.mem_cons_self _ _)
    have htail : ∀ x ∈ t, ∃ r ∈ l₂.erase q,
        checkEdgeIsSame (x.2.from', x.2.to') (r.2.from', r.2.to') false
          = true := by
      intro x hx
      obtain ⟨r, hr, hxr⟩ := hmatch x (List.mem_cons_of_mem _ hx)
      refine ⟨r, ?_, hxr⟩
      have hrq : r ≠ q := by
        intro hrq
        subst hrq
        have hpx := (List.pairwise_cons.1 hpw).1 x hx
        rw [checkEdgeIsSame_undir_iff] at hpq hxr
        have hpxt : checkEdgeIsSame (p.2.from', p.2.to')
            (x.2.from', x.2.to') false = true := by
          rw [checkEdgeIsSame_undir_iff]
          rcases hpq with ⟨h1, h2⟩ | ⟨h1, h2⟩ <;>
            rcases hxr with ⟨h3, h4⟩ | ⟨h3, h4⟩
          · exact Or.inl ⟨h1.trans h3.symm, h2.trans h4.symm⟩
          · exact Or.inr ⟨h2.trans h4.symm, h1.trans h3.symm⟩
          · exact Or.inr ⟨h1.trans h3.symm, h2.trans h4.symm⟩
          · exact Or.inl ⟨h2.trans h4.symm, h1.trans h3.symm⟩
        rw [hpxt] at hpx
        cases hpx
      exact (List.mem_erase_of_ne hrq).2 hr
    have hlen := pairs_inj_le t (l₂.erase q)
      (List.pairwise_cons.1 hpw).2 htail
    have herase : (l₂.erase q).length = l₂.length - 1 :=
      List.length_erase_of_mem hq
    have hpos : 0 < l₂.length := List.length_pos_of_mem hq
    rw [herase] at hlen
    simp only [List.length_cons]
    omega

/-- `hasEdge` (undirected) holds exactly when some stored edge matches the
pair. -/
theorem hasEdge_true_iff (net : Network) (f t : BaseId) :
    hasEdge net f t false = true ↔ ∃ q ∈ net.edges,
      checkEdgeIsSame (q.2.from', q.2.to') (f, t) false = true := by
  unfold hasEdge edge_list
  rw [List.any_eq_true]
  constructor
  · rintro ⟨e, he, hpred⟩
    obtain ⟨q, hq, rfl⟩ := List.mem_map.1 he
    exact ⟨q, hq, hpred⟩
  · rintro ⟨q, hq, h⟩
    exact ⟨q.2, List.mem_map_of_mem _ hq, h⟩

/-- Deleting an absent key is a no-op. -/
theorem mapDelete_not_mem {β : Type} (m : JMap β) (k : BaseId)
    (h : k ∉ mapKeys m) : mapDelete m k = m := by
  unfold mapDelete
  apply List.filter_eq_self.2
  intro a ha
  have hne : a.1 ≠ k := fun he => h (he ▸ List.mem_map_of_mem Prod.fst ha)
  simp [hne]

theorem mapDelete_cons_self {β : Type} (q : BaseId × β) (rest : JMap β)
    (k : BaseId) (h : q.1 = k) :
    mapDelete (q :: rest) k = mapDelete rest k := by
  unfold mapDelete
  rw [List.filter_cons, if_neg (by simp [h])]

theorem mapDelete_cons_ne {β : Type} (q : BaseId × β) (rest : JMap β)
    (k : BaseId) (h : q.1 ≠ k) :
    mapDelete (q :: rest) k = q :: mapDelete rest k := by
  unfold mapDelete
  rw [List.filter_cons, if_pos (by simp [h])]

/-- With duplicate-free keys, deleting a present key removes exactly one
entry. -/
theorem mapDelete_length_of_mem {β : Type} :
    ∀ (m : JMap β) (k : BaseId), (mapKeys m).Nodup → k ∈ mapKeys m →
      (mapDelete m k).length = m.length - 1
  | [], k, _, hk => absurd hk (List.not_mem_nil k)
  | q :: rest, k, hnd, hk => by
    by_cases hqk : q.1 = k
    · rw [mapDelete_cons_self q rest k hqk]
      have hrest : k ∉ mapKeys rest := hqk ▸ (List.nodup_cons.1 hnd).1
      rw [mapDelete_not_mem rest k hrest]
      simp only [List.length_cons]
      omega
    · rw [mapDelete_cons_ne q rest k hqk]
      have hk' : k ∈ mapKeys rest := by
        rcases List.mem_cons.1 hk with h | h
        · exact absurd h.symm hqk
        · exact h
      have ih := mapDelete_length_of_mem rest k (List.nodup_cons.1 hnd).2 hk'
      have hpos : 0 < rest.length := by
        have := List.length_pos_of_mem hk'
        simpa [mapKeys] using this
      simp only [List.length_cons, ih]
      omega

theorem mapHas_append_one {β : Type} (m : JMap β) (k0 : BaseId) (v : β)
    (k : BaseId) : mapHas (m ++ [(k0, v)]) k = (mapHas m k || (k0 == k)) := by
  simp [mapHas, List.any_append]

/-- Adding one fresh key to a key set strictly inside `K` stays within
`K`'s size. -/
theorem keys_room {β : Type} (K : List BaseId) (W : JMap β)
    (hndW : (mapKeys W).Nodup) (hsubW : ∀ k ∈ mapKeys W, k ∈ K)
    (x : BaseId) (hxK : x ∈ K) (hxW : mapHas W x = false) :
    W.length + 1 ≤ K.length := by
  have hnd2 : ((mapKeys W) ++ [x]).Nodup := by
    rw [List.nodup_append]
    refine ⟨hndW, List.nodup_singleton _, ?_⟩
    intro a ha hb
    have hax := List.mem_singleton.1 hb
    subst hax
    exact absurd ((mapHas_iff_mem_keys _ _).2 ha) (by rw [hxW]; decide)
  have hsub2 : (mapKeys W) ++ [x] ⊆ K := by
    intro a ha
    rcases List.mem_append.1 ha with h | h
    · exact hsubW a h
    · rw [List.mem_singleton.1 h]
      exact hxK
  have hle := (List.subperm_of_subset hnd2 hsub2).length_le
  have hlm : (mapKeys W).length = W.length := List.length_map _ _
  rw [List.length_append, List.length_singleton, hlm] at hle
  exact hle

/-- `addVertex` with room and a fresh id: the exact result. -/
theorem addVertex_total (net : Network) (args : VertexArgs)
    (hroom : net.vertices.length + 1 < net.vertex_limit)
    (hfresh : mapHas net.vertices args.id = false) :
    addVertex net args
      = ({ net with
            neighbors_cached := false,
            vertices := net.vertices ++
              [(args.id, ⟨args.id, args.weight.getD 1⟩)] },
        .ok (net.vertices ++
          [(args.id, (⟨args.id, args.weight.getD 1⟩ : Vertex))]).length) := by
  unfold addVertex
  rw [if_neg (by omega)]
  rw [hfresh]
  rw [if_neg (by decide)]
  dsimp only
  rw [mapSet_not_has _ _ _ hfresh]

/-- `addEdgeFinish` never throws: it either stores the edge or reports the
duplicate. -/
theorem addEdgeFinish_total (c₂ : Network) (f t : BaseId) (i : BaseId)
    (w : ℚ) (hm : c₂.is_multigraph = false) :
    ∃ net' b, addEdgeFinish c₂ f t i w = (net', .ok b) ∧
      net'.vertices = c₂.vertices ∧
      net'.is_multigraph = false ∧
      net'.edge_limit = c₂.edge_limit ∧
      net'.vertex_limit = c₂.vertex_limit ∧
      ((hasEdge c₂ f t false = true ∧ net'.edges = c₂.edges) ∨
       (hasEdge c₂ f t false = false ∧
        net'.edges = mapSet c₂.edges i ⟨f, t, w⟩)) := by
  by_cases hdup : hasEdge c₂ f t false = true
  · refine ⟨c₂, false, ?_, rfl, hm, rfl, rfl, Or.inl ⟨hdup, rfl⟩⟩
    unfold addEdgeFinish
    rw [show (!c₂.is_multigraph && hasEdge c₂ f t false) = true from by
      rw [hm, hdup]; rfl]
    rfl
  · have hdup' : hasEdge c₂ f t false = false := by
      revert hdup; cases hasEdge c₂ f t false <;> simp
    refine ⟨{ c₂ with
        neighbors_cached := false,
        edges := mapSet c₂.edges i ⟨f, t, w⟩ }, true, ?_, rfl, hm, rfl, rfl,
      Or.inr ⟨hdup', rfl⟩⟩
    unfold addEdgeFinish
    rw [show (!c₂.is_multigraph && hasEdge c₂ f t false) = false from by
      rw [hm, hdup']; rfl]
    rfl

theorem mem_keys_append_one {β : Type} (m : JMap β) (x : BaseId) (v : β)
    (k : BaseId) :
    k ∈ mapKeys (m ++ [(x, v)]) ↔ k ∈ mapKeys m ∨ k = x := by
  rw [mapKeys_append, List.mem_append]
  constructor
  · rintro (h | h)
    · exact Or.inl h
    · exact Or.inr (List.mem_singleton.1 h)
  · rintro (h | rfl)
    · exact Or.inl h
    · exact Or.inr (List.mem_singleton.2 rfl)

/-- `addEdge` as `ego` calls it (only `from`/`to` given) never throws, as
long as the pair is no self-loop, the stored edges leave room under the
edge limit, and both endpoints belong to a key set `K` that leaves room
under the vertex limit: it stores the pair (weight 1) or reports the
duplicate, creating at most the two endpoint vertices. -/
theorem addEdge_ego_total (net : Network) (f t : BaseId) (K : List BaseId)
    (hmult : net.is_multigraph = false)
    (hne : f ≠ t)
    (hel : net.edges.length < net.edge_limit)
    (hfK : f ∈ K) (htK : t ∈ K)
    (hsubK : ∀ k ∈ mapKeys net.vertices, k ∈ K)
    (hnd : (mapKeys net.vertices).Nodup)
    (hvK : K.length < net.vertex_limit) :
    ∃ net' b, addEdge net { from' := f, to' := t } = (net', .ok b) ∧
      net'.is_multigraph = false ∧
      net'.edge_limit = net.edge_limit ∧
      net'.vertex_limit = net.vertex_limit ∧
      (∀ k ∈ mapKeys net'.vertices,
        k ∈ mapKeys net.vertices ∨ k = f ∨ k = t) ∧
      (∀ k ∈ mapKeys net.vertices, k ∈ mapKeys net'.vertices) ∧
      f ∈ mapKeys net'.vertices ∧ t ∈ mapKeys net'.vertices ∧
      (mapKeys net'.vertices).Nodup ∧
      ((hasEdge net f t false = true ∧ net'.edges = net.edges) ∨
       (hasEdge net f t false = false ∧
        ∃ nid, net'.edges = net.edges ++ [(nid, ⟨f, t, 1⟩)])) := by
  have hfree := (newEID_spec net).1
  have hrun0 : addEdge net { from' := f, to' := t }
      = addEdgeResolved { net with free_eid := net.free_eid + 1 }
          { from' := f, to' := t } (.num ((newEID net).1 : Int)) := by
    unfold addEdge
    rw [show ({ from' := f, to' := t } : EdgeArgs).id = none from rfl]
    dsimp only
    rw [(newEID_spec net).2]
  have hfeq : (f == t) = false := by simp [hne]
  by_cases hvf : mapHas net.vertices f = true
  · by_cases hvt : mapHas net.vertices t = true
    · -- both endpoints present
      obtain ⟨net', b, hfin, hfv, hfm, hfel, hfvl, hfe⟩ :=
        addEdgeFinish_total
          { net with
              free_eid := net.free_eid + 1,
              neighbors_cached := false }
          f t (.num ((newEID net).1 : Int)) 1 hmult
      refine ⟨net', b, ?_, hfm, hfel, hfvl, ?_, ?_, ?_, ?_, ?_, ?_⟩
      · rw [hrun0]
        unfold addEdgeResolved
        dsimp only
        rw [if_neg (show ¬(mapHas net.edges
            (BaseId.num ((newEID net).1 : Int)) = true) from by simp [hfree])]
        rw [if_neg hne]
        rw [if_neg (show ¬(net.edges.length ≥ net.edge_limit) from by omega)]
        rw [show Option.getD (none : Option Bool) true = true from rfl]
        rw [if_neg (by decide)]
        rw [if_neg (not_not_intro hvf)]
        dsimp only
        rw [if_neg (not_not_intro hvt)]
        dsimp only
        exact hfin
      · intro k hk
        rw [hfv] at hk
        exact Or.inl hk
      · intro k hk
        rw [hfv]
        exact hk
      · rw [hfv]
        exact (mapHas_iff_mem_keys _ _).1 hvf
      · rw [hfv]
        exact (mapHas_iff_mem_keys _ _).1 hvt
      · rw [hfv]
        exact hnd
      · rcases hfe with ⟨hd, he⟩ | ⟨hd, he⟩
        · exact Or.inl ⟨(hasEdge_congr net _ f t false rfl).trans hd, he⟩
        · refine Or.inr ⟨(hasEdge_congr net _ f t false rfl).trans hd,
            .num ((newEID net).1 : Int), he.trans (mapSet_not_has _ _ _ hfree)⟩
    · -- `t` must be created
      have hvt' : mapHas net.vertices t = false := by
        revert hvt; cases mapHas net.vertices t <;> simp
      have hroomt : net.vertices.length + 1 < net.vertex_limit := by
        have := keys_room K net.vertices hnd hsubK t htK hvt'
        omega
      obtain ⟨net', b, hfin, hfv, hfm, hfel, hfvl, hfe⟩ :=
        addEdgeFinish_total
          { net with
              free_eid := net.free_eid + 1,
              neighbors_cached := false,
              vertices := net.vertices ++ [(t, ⟨t, 1⟩)] }
          f t (.num ((newEID net).1 : Int)) 1 hmult
      refine ⟨net', b, ?_, hfm, hfel, hfvl, ?_, ?_, ?_, ?_, ?_, ?_⟩
      · rw [hrun0]
        unfold addEdgeResolved
        dsimp only
        rw [if_neg (show ¬(mapHas net.edges
            (BaseId.num ((newEID net).1 : Int)) = true) from by simp [hfree])]
        rw [if_neg hne]
        rw [if_neg (show ¬(net.edges.length ≥ net.edge_limit) from by omega)]
        rw [show Option.getD (none : Option Bool) true = true from rfl]
        rw [if_neg (by decide)]
        rw [if_neg (not_not_intro hvf)]
        dsimp only
        rw [if_pos (show ¬(mapHas net.vertices t = true) from by
          rw [hvt']; decide)]
        rw [addVertex_total
          { net with
              free_eid := net.free_eid + 1,
              neighbors_cached := false }
          { id := t } hroomt hvt']
        dsimp only
        exact hfin
      · intro k hk
        rw [hfv] at hk
        rcases (mem_keys_append_one _ _ _ _).1 hk with h | rfl
        · exact Or.inl h
        · exact Or.inr (Or.inr rfl)
      · intro k hk
        rw [hfv]
        exact (mem_keys_append_one _ _ _ _).2 (Or.inl hk)
      · rw [hfv]
        exact (mem_keys_append_one _ _ _ _).2
          (Or.inl ((mapHas_iff_mem_keys _ _).1 hvf))
      · rw [hfv]
        exact (mem_keys_append_one _ _ _ _).2 (Or.inr rfl)
      · rw [hfv]
        exact nodup_keys_append_one _ _ _ hnd hvt'
      · rcases hfe with ⟨hd, he⟩ | ⟨hd, he⟩
        · exact Or.inl ⟨(hasEdge_congr net _ f t false rfl).trans hd, he⟩
        · refine Or.inr ⟨(hasEdge_congr net _ f t false rfl).trans hd,
            .num ((newEID net).1 : Int), he.trans (mapSet_not_has _ _ _ hfree)⟩
  · -- `f` must be created
    have hvf' : mapHas net.vertices f = false := by
      revert hvf; cases mapHas net.vertices f <;> simp
    have hroomf : net.vertices.length + 1 < net.vertex_limit := by
      have := keys_room K net.vertices hnd hsubK f hfK hvf'
      omega
    have hndf : (mapKeys (net.vertices ++ [(f, (⟨f, 1⟩ : Vertex))])).Nodup :=
      nodup_keys_append_one _ _ _ hnd hvf'
    have happt : ∀ v : Vertex, mapHas (net.vertices ++ [(f, v)]) t
        = mapHas net.vertices t := by
      intro v
      rw [mapHas_append_one, hfeq, Bool.or_false]
    by_cases hvt : mapHas net.vertices t = true
    · obtain ⟨net', b, hfin, hfv, hfm, hfel, hfvl, hfe⟩ :=
        addEdgeFinish_total
          { net with
              free_eid := net.free_eid + 1,
              neighbors_cached := false,
              vertices := net.vertices ++ [(f, ⟨f, 1⟩)] }
          f t (.num ((newEID net).1 : Int)) 1 hmult
      refine ⟨net', b, ?_, hfm, hfel, hfvl, ?_, ?_, ?_, ?_, ?_, ?_⟩
      · rw [hrun0]
        unfold addEdgeResolved
        dsimp only
        rw [if_neg (show ¬(mapHas net.edges
            (BaseId.num ((newEID net).1 : Int)) = true) from by simp [hfree])]
        rw [if_neg hne]
        rw [if_neg (show ¬(net.edges.length ≥ net.edge_limit) from by omega)]
        rw [show Option.getD (none : Option Bool) true = true from rfl]
        rw [if_neg (by decide)]
        rw [if_pos (show ¬(mapHas net.vertices f = true) from by
          rw [hvf']; decide)]
        rw [addVertex_total
          { net with
              free_eid := net.free_eid + 1,
              neighbors_cached := false }
          { id := f } hroomf hvf']
        dsimp only
        rw [if_neg (not_not_intro (show mapHas (net.vertices
            ++ [(f, (⟨f, Option.getD (none : Option ℚ) 1⟩ : Vertex))]) t
            = true from by rw [happt]; exact hvt))]
        dsimp only
        exact hfin
      · intro k hk
        rw [hfv] at hk
        rcases (mem_keys_append_one _ _ _ _).1 hk with h | rfl
        · exact Or.inl h
        · exact Or.inr (Or.inl rfl)
      · intro k hk
        rw [hfv]
        exact (mem_keys_append_one _ _ _ _).2 (Or.inl hk)
      · rw [hfv]
        exact (mem_keys_append_one _ _ _ _).2 (Or.inr rfl)
      · rw [hfv]
        exact (mem_keys_append_one _ _ _ _).2
          (Or.inl ((mapHas_iff_mem_keys _ _).1 hvt))
      · rw [hfv]
        exact hndf
      · rcases hfe with ⟨hd, he⟩ | ⟨hd, he⟩
        · exact Or.inl ⟨(hasEdge_congr net _ f t false rfl).trans hd, he⟩
        · refine Or.inr ⟨(hasEdge_congr net _ f t false rfl).trans hd,
            .num ((newEID net).1 : Int), he.trans (mapSet_not_has _ _ _ hfree)⟩
    · -- both endpoints created
      have hvt' : mapHas net.vertices t = false := by
        revert hvt; cases mapHas net.vertices t <;> simp
      have hsubf : ∀ k ∈ mapKeys (net.vertices ++ [(f, (⟨f, 1⟩ : Vertex))]),
          k ∈ K := by
        intro k hk
        rcases (mem_keys_append_one _ _ _ _).1 hk with h | rfl
        · exact hsubK k h
        · exact hfK
      have hvtf : mapHas (net.vertices ++ [(f, (⟨f, 1⟩ : Vertex))]) t
          = false := by
        rw [happt]
        exact hvt'
      have hroomt : (net.vertices ++ [(f, (⟨f, 1⟩ : Vertex))]).length + 1
          < net.vertex_limit := by
        have := keys_room K (net.vertices ++ [(f, (⟨f, 1⟩ : Vertex))])
          hndf hsubf t htK hvtf
        omega
      obtain ⟨net', b, hfin, hfv, hfm, hfel, hfvl, hfe⟩ :=
        addEdgeFinish_total
          { net with
              free_eid := net.free_eid + 1,
              neighbors_cached := false,
              vertices := (net.vertices ++ [(f, ⟨f, 1⟩)]) ++ [(t, ⟨t, 1⟩)] }
          f t (.num ((newEID net).1 : Int)) 1 hmult
      refine ⟨net', b, ?_, hfm, hfel, hfvl, ?_, ?_, ?_, ?_, ?_, ?_⟩
      · rw [hrun0]
        unfold addEdgeResolved
        dsimp only
        rw [if_neg (show ¬(mapHas net.edges
            (BaseId.num ((newEID net).1 : Int)) = true) from by simp [hfree])]
        rw [if_neg hne]
        rw [if_neg (show ¬(net.edges.length ≥ net.edge_limit) from by omega)]
        rw [show Option.getD (none : Option Bool) true = true from rfl]
        rw [if_neg (by decide)]
        rw [if_pos (show ¬(mapHas net.vertices f = true) from by
          rw [hvf']; decide)]
        rw [addVertex_total
          { net with
              free_eid := net.free_eid + 1,
              neighbors_cached := false }
          { id := f } hroomf hvf']
        dsimp only
        rw [if_pos (show ¬(mapHas (net.vertices
            ++ [(f, (⟨f, Option.getD (none : Option ℚ) 1⟩ : Vertex))]) t
            = true) from by rw [happt, hvt']; decide)]
        rw [addVertex_total
          { net with
              free_eid := net.free_eid + 1,
              neighbors_cached := false,
              vertices := net.vertices
                ++ [(f, ⟨f, Option.getD (none : Option ℚ) 1⟩)] }
          { id := t } hroomt hvtf]
        dsimp only
        exact hfin
      · intro k hk
        rw [hfv] at hk
        rcases (mem_keys_append_one _ _ _ _).1 hk with h | rfl
        · rcases (mem_keys_append_one _ _ _ _).1 h with h' | rfl
          · exact Or.inl h'
          · exact Or.inr (Or.inl rfl)
        · exact Or.inr (Or.inr rfl)
      · intro k hk
        rw [hfv]
        exact (mem_keys_append_one _ _ _ _).2
          (Or.inl ((mem_keys_append_one _ _ _ _).2 (Or.inl hk)))
      · rw [hfv]
        exact (mem_keys_append_one _ _ _ _).2
          (Or.inl ((mem_keys_append_one _ _ _ _).2 (Or.inr rfl)))
      · rw [hfv]
        exact (mem_keys_append_one _ _ _ _).2 (Or.inr rfl)
      · rw [hfv]
        exact nodup_keys_append_one _ _ _ hndf hvtf
      · rcases hfe with ⟨hd, he⟩ | ⟨hd, he⟩
        · exact Or.inl ⟨(hasEdge_congr net _ f t false rfl).trans hd, he⟩
        · refine Or.inr ⟨(hasEdge_congr net _ f t false rfl).trans hd,
            .num ((newEID net).1 : Int), he.trans (mapSet_not_has _ _ _ hfree)⟩

/-- The invariant survives one `addEdge` of an edge of `g` whose insertion
obligation (incidence for the key-origin clause) holds; shared workhorse
for both `ego` passes. -/
theorem egoInv_addEdge (g : Network) (id : BaseId) (acc : Network)
    (p : BaseId × Edge) (hp : p ∈ g.edges)
    (hself : ∀ q ∈ g.edges, q.2.from' ≠ q.2.to')
    (hends : ∀ q ∈ g.edges, q.2.from' ∈ mapKeys g.vertices ∧
      q.2.to' ∈ mapKeys g.vertices)
    (hel : g.edges.length < g.edge_limit)
    (hvl : g.vertices.length < g.vertex_limit)
    (hInv : egoInv g id acc)
    (hkey : (p.2.from' == id || p.2.to' == id) = true ∨
      (p.2.from' ∈ mapKeys acc.vertices ∧ p.2.to' ∈ mapKeys acc.vertices)) :
    ∃ net' b, addEdge acc { from' := p.2.from', to' := p.2.to' }
        = (net', .ok b) ∧
      egoInv g id net' ∧
      (∀ k ∈ mapKeys acc.vertices, k ∈ mapKeys net'.vertices) ∧
      p.2.from' ∈ mapKeys net'.vertices ∧ p.2.to' ∈ mapKeys net'.vertices ∧
      (∀ k ∈ mapKeys net'.vertices,
        k ∈ mapKeys acc.vertices ∨ k = p.2.from' ∨ k = p.2.to') := by
  obtain ⟨hm, helq, hvlq, hndq, horig, hcen, hpw, hecl⟩ := hInv
  have hsubK : ∀ k ∈ mapKeys acc.vertices, k ∈ mapKeys g.vertices := by
    intro k hk
    obtain ⟨p', hp', _, hor⟩ := horig k hk
    rcases hor with rfl | rfl
    · exact (hends p' hp').1
    · exact (hends p' hp').2
  have hedgeroom : acc.edges.length < acc.edge_limit := by
    rw [helq]
    have := pairs_inj_le acc.edges g.edges hpw
      (fun q hq => (hecl q hq).2.2.2)
    omega
  have hvK : (mapKeys g.vertices).length < acc.vertex_limit := by
    rw [hvlq]
    have hlm : (mapKeys g.vertices).length = g.vertices.length :=
      List.length_map _ _
    omega
  obtain ⟨net', b, hAE, hm', hel', hvl', hsub, hsup, hfmem, htmem, hnd',
      hdich⟩ :=
    addEdge_ego_total acc p.2.from' p.2.to' (mapKeys g.vertices) hm
      (hself p hp) hedgeroom (hends p hp).1 (hends p hp).2 hsubK hndq hvK
  refine ⟨net', b, hAE, ?_, hsup, hfmem, htmem, hsub⟩
  refine ⟨hm', hel'.trans helq, hvl'.trans hvlq, hnd', ?_, ?_, ?_, ?_⟩
  · intro k hk
    rcases hsub k hk with hk' | hor
    · exact horig k hk'
    · rcases hkey with hinc | ⟨hfin, htin⟩
      · rcases hor with rfl | rfl
        · exact ⟨p, hp, hinc, Or.inl rfl⟩
        · exact ⟨p, hp, hinc, Or.inr rfl⟩
      · rcases hor with rfl | rfl
        · exact horig _ hfin
        · exact horig _ htin
  · refine Or.inr ?_
    rcases hkey with hinc | ⟨hfin, _⟩
    · rcases (Bool.or_eq_true _ _).mp hinc with hf | ht
      · exact (beq_iff_eq.1 hf) ▸ hfmem
      · exact (beq_iff_eq.1 ht) ▸ htmem
    · rcases hcen with hemp | hidin
      · exact absurd hfin (by
          rw [show mapKeys acc.vertices = [] from by rw [hemp]; rfl]
          exact List.not_mem_nil _)
      · exact hsup id hidin
  · rcases hdich with ⟨_, he⟩ | ⟨hd, ⟨nid, he⟩⟩
    · rw [he]
      exact hpw
    · rw [he]
      rw [List.pairwise_append]
      refine ⟨hpw, List.pairwise_singleton _ _, ?_⟩
      intro a ha bb hb
      rw [List.mem_singleton.1 hb]
      have hall : ∀ e ∈ edge_list acc,
          ¬(checkEdgeIsSame (e.from', e.to') (p.2.from', p.2.to') false
            = true) := by
        have := hd
        unfold hasEdge at this
        rw [List.any_eq_false] at this
        exact this
      have := hall a.2 (List.mem_map_of_mem _ ha)
      revert this
      cases checkEdgeIsSame (a.2.from', a.2.to') (p.2.from', p.2.to') false
      · intro _; rfl
      · intro hcon; exact absurd rfl hcon
  · rcases hdich with ⟨_, he⟩ | ⟨_, ⟨nid, he⟩⟩
    · rw [he]
      intro q hq
      obtain ⟨h1, h2, h3, h4⟩ := hecl q hq
      exact ⟨hsup _ h1, hsup _ h2, h3, h4⟩
    · rw [he]
      intro q hq
      rcases List.mem_append.1 hq with hq' | hq'
      · obtain ⟨h1, h2, h3, h4⟩ := hecl q hq'
        exact ⟨hsup _ h1, hsup _ h2, h3, h4⟩
      · rw [List.mem_singleton.1 hq']
        refine ⟨hfmem, htmem, hself p hp, p, hp, ?_⟩
        rw [checkEdgeIsSame_undir_iff]
        exact Or.inl ⟨rfl, rfl⟩

/-- The first `ego` pass never throws and keeps the invariant; the
endpoints of every processed incident edge end up in the scratch
network. -/
theorem egoFold1_run (g : Network) (id : BaseId)
    (hself : ∀ q ∈ g.edges, q.2.from' ≠ q.2.to')
    (hends : ∀ q ∈ g.edges, q.2.from' ∈ mapKeys g.vertices ∧
      q.2.to' ∈ mapKeys g.vertices)
    (hel : g.edges.length < g.edge_limit)
    (hvl : g.vertices.length < g.vertex_limit) :
    ∀ (l : List (BaseId × Edge)) (acc : Network),
      (∀ p ∈ l, p ∈ g.edges) →
      egoInv g id acc →
      ∃ c₁, l.foldl (egoStep1 id) (acc, .ok ()) = (c₁, .ok ()) ∧
        egoInv g id c₁ ∧
        (∀ k ∈ mapKeys acc.vertices, k ∈ mapKeys c₁.vertices) ∧
        (∀ p ∈ l, (p.2.from' == id || p.2.to' == id) = true →
          p.2.from' ∈ mapKeys c₁.vertices ∧ p.2.to' ∈ mapKeys c₁.vertices)
  | [], acc, _, hInv =>
    ⟨acc, rfl, hInv, fun _ hk => hk, fun p hp => absurd hp (List.not_mem_nil p)⟩
  | p :: rest, acc, hmem, hInv => by
    cases hcond : (p.2.from' == id || p.2.to' == id) with
    | false =>
      have hstep : egoStep1 id (acc, .ok ()) p = (acc, .ok ()) := by
        unfold egoStep1
        dsimp only
        rw [hcond]
        rw [if_neg (by decide)]
      obtain ⟨c₁, hfold, hInv₁, hmono, hpost⟩ :=
        egoFold1_run g id hself hends hel hvl rest acc
          (fun q hq => hmem q (List.mem_cons_of_mem _ hq)) hInv
      refine ⟨c₁, ?_, hInv₁, hmono, ?_⟩
      · show rest.foldl (egoStep1 id) (egoStep1 id (acc, .ok ()) p) = _
        rw [hstep]
        exact hfold
      · intro q hq hinc
        rcases List.mem_cons.1 hq with rfl | hq'
        · rw [hinc] at hcond
          cases hcond
        · exact hpost q hq' hinc
    | true =>
      obtain ⟨net', b, hAE, hInv', hmono', hfmem, htmem, _⟩ :=
        egoInv_addEdge g id acc p (hmem p (List.mem_cons_self _ _))
          hself hends hel hvl hInv (Or.inl hcond)
      have hstep : egoStep1 id (acc, .ok ()) p = (net', .ok ()) := by
        unfold egoStep1
        dsimp only
        rw [hcond]
        rw [if_pos rfl, hAE]
      obtain ⟨c₁, hfold, hInv₁, hmono, hpost⟩ :=
        egoFold1_run g id hself hends hel hvl rest net'
          (fun q hq => hmem q (List.mem_cons_of_mem _ hq)) hInv'
      refine ⟨c₁, ?_, hInv₁, fun k hk => hmono k (hmono' k hk), ?_⟩
      · show rest.foldl (egoStep1 id) (egoStep1 id (acc, .ok ()) p) = _
        rw [hstep]
        exact hfold
      · intro q hq hinc
        rcases List.mem_cons.1 hq with rfl | hq'
        · exact ⟨hmono _ hfmem, hmono _ htmem⟩
        · exact hpost q hq' hinc

/-- The second `ego` pass never throws, keeps the invariant, and leaves
the key set unchanged. -/
theorem egoFold2_run (g : Network) (id : BaseId)
    (hself : ∀ q ∈ g.edges, q.2.from' ≠ q.2.to')
    (hends : ∀ q ∈ g.edges, q.2.from' ∈ mapKeys g.vertices ∧
      q.2.to' ∈ mapKeys g.vertices)
    (hel : g.edges.length < g.edge_limit)
    (hvl : g.vertices.length < g.vertex_limit) :
    ∀ (l : List (BaseId × Edge)) (acc : Network),
      (∀ p ∈ l, p ∈ g.edges) →
      egoInv g id acc →
      ∃ c₂, l.foldl egoStep2 (acc, .ok ()) = (c₂, .ok ()) ∧
        egoInv g id c₂ ∧
        (∀ k, k ∈ mapKeys c₂.vertices ↔ k ∈ mapKeys acc.vertices)
  | [], acc, _, hInv => ⟨acc, rfl, hInv, fun _ => Iff.rfl⟩
  | p :: rest, acc, hmem, hInv => by
    cases hcond : (mapHas acc.vertices p.2.from'
        && mapHas acc.vertices p.2.to') with
    | false =>
      have hstep : egoStep2 (acc, .ok ()) p = (acc, .ok ()) := by
        unfold egoStep2
        dsimp only
        rw [hcond]
        rw [if_neg (by decide)]
      obtain ⟨c₂, hfold, hInv₂, hkiff⟩ :=
        egoFold2_run g id hself hends hel hvl rest acc
          (fun q hq => hmem q (List.mem_cons_of_mem _ hq)) hInv
      refine ⟨c₂, ?_, hInv₂, hkiff⟩
      show rest.foldl egoStep2 (egoStep2 (acc, .ok ()) p) = _
      rw [hstep]
      exact hfold
    | true =>
      obtain ⟨hhf, hht⟩ := (Bool.and_eq_true _ _).mp hcond
      have hfin : p.2.from' ∈ mapKeys acc.vertices :=
        (mapHas_iff_mem_keys _ _).1 hhf
      have htin : p.2.to' ∈ mapKeys acc.vertices :=
        (mapHas_iff_mem_keys _ _).1 hht
      obtain ⟨net', b, hAE, hInv', hmono', hfmem, htmem, hsub'⟩ :=
        egoInv_addEdge g id acc p (hmem p (List.mem_cons_self _ _))
          hself hends hel hvl hInv (Or.inr ⟨hfin, htin⟩)
      have hstep : egoStep2 (acc, .ok ()) p = (net', .ok ()) := by
        unfold egoStep2
        dsimp only
        rw [hcond]
        rw [if_pos rfl, hAE]
      obtain ⟨c₂, hfold, hInv₂, hkiff⟩ :=
        egoFold2_run g id hself hends hel hvl rest net'
          (fun q hq => hmem q (List.mem_cons_of_mem _ hq)) hInv'
      refine ⟨c₂, ?_, hInv₂, ?_⟩
      · show rest.foldl egoStep2 (egoStep2 (acc, .ok ()) p) = _
        rw [hstep]
        exact hfold
      · intro k
        rw [hkiff k]
        constructor
        · intro hk
          rcases hsub' k hk with h | rfl | rfl
          · exact h
          · exact hfin
          · exact htin
        · exact hmono' k

/-- `ego` never throws on a well-formed graph with room under both limits;
the result satisfies the scratch invariant and holds the endpoints of
every incident edge. -/
theorem ego_ok (g : Network) (id : BaseId)
    (hself : ∀ q ∈ g.edges, q.2.from' ≠ q.2.to')
    (hends : ∀ q ∈ g.edges, q.2.from' ∈ mapKeys g.vertices ∧
      q.2.to' ∈ mapKeys g.vertices)
    (hel : g.edges.length < g.edge_limit)
    (hvl : g.vertices.length < g.vertex_limit) :
    ∃ c₂, ego g id = .ok c₂ ∧ egoInv g id c₂ ∧
      (∀ p ∈ g.edges, (p.2.from' == id || p.2.to' == id) = true →
        p.2.from' ∈ mapKeys c₂.vertices ∧ p.2.to' ∈ mapKeys c₂.vertices) := by
  have hInv0 : egoInv g id (mkNetwork (netArgs g)) := by
    refine ⟨rfl, rfl, rfl, List.nodup_nil, ?_, Or.inl rfl, List.Pairwise.nil,
      ?_⟩
    · intro k hk
      exact absurd hk (List.not_mem_nil k)
    · intro q hq
      exact absurd hq (List.not_mem_nil q)
  obtain ⟨c₁, hf1, hInv₁, _, hpost₁⟩ :=
    egoFold1_run g id hself hends hel hvl g.edges (mkNetwork (netArgs g))
      (fun _ hq => hq) hInv0
  obtain ⟨c₂, hf2, hInv₂, hkiff⟩ :=
    egoFold2_run g id hself hends hel hvl g.edges c₁ (fun _ hq => hq) hInv₁
  refine ⟨c₂, ?_, hInv₂, ?_⟩
  · unfold ego
    dsimp only
    rw [hf1]
    dsimp only
    rw [hf2]
  · intro p hp hinc
    obtain ⟨h1, h2⟩ := hpost₁ p hp hinc
    exact ⟨(hkiff _).2 h1, (hkiff _).2 h2⟩

/-- `removeVertex` on a present vertex: the exact result. -/
theorem removeVertex_total (net : Network) (id : BaseId)
    (hhas : mapHas net.vertices id = true) :
    removeVertex net id = ({ net with
        neighbors_cached := false,
        vertices := mapDelete net.vertices id,
        edges := net.edges.filter
          (fun p => ¬(p.2.from' == id || p.2.to' == id)) }, .ok ()) := by
  unfold removeVertex
  rw [if_neg (not_not_intro hhas)]

theorem jsAdd_nan_right (a : JSNum) : jsAdd a .nan = .nan := by
  cases a <;> rfl

/-- A `NaN` anywhere in a JS summation makes the total `NaN`. -/
theorem foldl_jsAdd_nan : ∀ (l : List JSNum) (a : JSNum),
    (a = .nan ∨ .nan ∈ l) → l.foldl jsAdd a = .nan
  | [], _, h => by
    rcases h with rfl | h
    · rfl
    · exact absurd h (List.not_mem_nil _)
  | c :: rest, a, h => by
    rcases h with rfl | h
    · show rest.foldl jsAdd (jsAdd .nan c) = .nan
      rw [show jsAdd .nan c = .nan from by cases c <;> rfl]
      exact foldl_jsAdd_nan rest .nan (Or.inl rfl)
    · rcases List.mem_cons.1 h with rfl | h'
      · show rest.foldl jsAdd (jsAdd a .nan) = .nan
        rw [jsAdd_nan_right]
        exact foldl_jsAdd_nan rest .nan (Or.inl rfl)
      · exact foldl_jsAdd_nan rest (jsAdd a c) (Or.inr h')

/-- When every per-vertex call returns, the `map` of `averageClustering`
returns the list of values. -/
theorem clusterVals_run (net : Network) :
    ∀ (l : List Vertex),
      (∀ w ∈ l, ∃ val, clustering net w.id = .ok val) →
      ∃ cs, clusterVals net l = .ok cs ∧
        (∀ w ∈ l, ∀ val, clustering net w.id = .ok val → val ∈ cs)
  | [], _ => ⟨[], rfl, fun w hw => absurd hw (List.not_mem_nil w)⟩
  | w :: rest, htot => by
    obtain ⟨val, hval⟩ := htot w (List.mem_cons_self _ _)
    obtain ⟨cs, hcs, hmem⟩ := clusterVals_run net rest
      (fun x hx => htot x (List.mem_cons_of_mem _ hx))
    refine ⟨val :: cs, ?_, ?_⟩
    · unfold clusterVals
      rw [hval]
      dsimp only
      rw [hcs]
    · intro x hx u hu
      rcases List.mem_cons.1 hx with rfl | hx'
      · rw [hval] at hu
        injection hu with hu
        subst hu
        exact List.mem_cons_self _ _
      · exact List.mem_cons_of_mem _ (hmem x hx' u hu)

/-- `clustering` never throws on a well-formed graph with room under both
limits. -/
theorem clustering_ok (g : Network) (w : BaseId)
    (hself : ∀ q ∈ g.edges, q.2.from' ≠ q.2.to')
    (hends : ∀ q ∈ g.edges, q.2.from' ∈ mapKeys g.vertices ∧
      q.2.to' ∈ mapKeys g.vertices)
    (hel : g.edges.length < g.edge_limit)
    (hvl : g.vertices.length < g.vertex_limit) :
    ∃ val, clustering g w = .ok val := by
  obtain ⟨c₂, hego, hInv, _⟩ := ego_ok g w hself hends hel hvl
  unfold clustering
  rw [hego]
  dsimp only
  by_cases hle : c₂.vertices.length ≤ 1
  · rw [if_pos hle]
    exact ⟨.fin 0, rfl⟩
  · rw [if_neg hle]
    have hcen : w ∈ mapKeys c₂.vertices := by
      rcases hInv.2.2.2.2.2.1 with hemp | hin
      · exact absurd (by rw [hemp]; decide) hle
      · exact hin
    have hhas : mapHas c₂.vertices w = true := (mapHas_iff_mem_keys _ _).2 hcen
    rw [removeVertex_total c₂ w hhas]
    dsimp only
    exact ⟨_, rfl⟩

/-- Core of C10: with exactly one incident edge, the ego network is the
single pair, the centerless rest is one isolated vertex, and the result is
`0 / 0 = NaN`. -/
theorem clustering_single_nan (g : Network) (v : BaseId) (e0 : BaseId × Edge)
    (hself : ∀ p ∈ g.edges, p.2.from' ≠ p.2.to')
    (hends : ∀ p ∈ g.edges, p.2.from' ∈ mapKeys g.vertices ∧
      p.2.to' ∈ mapKeys g.vertices)
    (hel : g.edges.length < g.edge_limit)
    (hvl : g.vertices.length < g.vertex_limit)
    (hone : g.edges.filter (fun p => p.2.from' == v || p.2.to' == v) = [e0]) :
    clustering g v = .ok .nan := by
  obtain ⟨c₂, hego, hInv, hpost⟩ := ego_ok g v hself hends hel hvl
  obtain ⟨hm, helq, hvlq, hndq, horig, hcen, hpw, hecl⟩ := hInv
  have he0fil : e0 ∈ g.edges.filter
      (fun p => p.2.from' == v || p.2.to' == v) := by
    rw [hone]
    exact List.mem_cons_self _ _
  have he0g : e0 ∈ g.edges := (List.mem_filter.1 he0fil).1
  have he0inc : (e0.2.from' == v || e0.2.to' == v) = true :=
    (List.mem_filter.1 he0fil).2
  have hf0t0 : e0.2.from' ≠ e0.2.to' := hself e0 he0g
  obtain ⟨hf0in, ht0in⟩ := hpost e0 he0g he0inc
  have hkonly : ∀ k ∈ mapKeys c₂.vertices,
      k = e0.2.from' ∨ k = e0.2.to' := by
    intro k hk
    obtain ⟨p, hpg, hpinc, hor⟩ := horig k hk
    have hpfil : p ∈ g.edges.filter
        (fun q => q.2.from' == v || q.2.to' == v) :=
      List.mem_filter.2 ⟨hpg, hpinc⟩
    rw [hone] at hpfil
    rw [List.mem_singleton.1 hpfil] at hor
    exact hor
  have hperm : List.Perm (mapKeys c₂.vertices) [e0.2.from', e0.2.to'] := by
    refine (List.perm_ext_iff_of_nodup hndq (by simp [hf0t0])).2 ?_
    intro a
    constructor
    · intro ha
      rcases hkonly a ha with rfl | rfl
      · simp
      · simp
    · intro ha
      rcases List.mem_cons.1 ha with rfl | ha'
      · exact hf0in
      · rw [List.mem_singleton.1 ha']
        exact ht0in
  have hlen2 : c₂.vertices.length = 2 := by
    have := hperm.length_eq
    simpa [mapKeys] using this
  have hvin : v ∈ mapKeys c₂.vertices := by
    rcases (Bool.or_eq_true _ _).mp he0inc with hf | ht
    · exact (beq_iff_eq.1 hf) ▸ hf0in
    · exact (beq_iff_eq.1 ht) ▸ ht0in
  have hhasv : mapHas c₂.vertices v = true := (mapHas_iff_mem_keys _ _).2 hvin
  have hedgev : ∀ q ∈ c₂.edges,
      (q.2.from' == v || q.2.to' == v) = true := by
    intro q hq
    obtain ⟨hqf, hqt, hqne, _⟩ := hecl q hq
    rcases hkonly _ hqf with hf | hf <;> rcases hkonly _ hqt with ht | ht
    · exact absurd (hf.trans ht.symm) hqne
    · rw [hf, ht]
      exact he0inc
    · rw [hf, ht, Bool.or_comm]
      exact he0inc
    · exact absurd (hf.trans ht.symm) hqne
  have hfilnil : c₂.edges.filter
      (fun p => ¬(p.2.from' == v || p.2.to' == v)) = [] := by
    apply List.filter_eq_nil_iff.2
    intro q hq
    simp [hedgev q hq]
  have hdel1 : (mapDelete c₂.vertices v).length = 1 := by
    rw [mapDelete_length_of_mem c₂.vertices v hndq hvin, hlen2]
  unfold clustering
  rw [hego]
  dsimp only
  rw [hlen2]
  rw [if_neg (by decide)]
  rw [removeVertex_total c₂ v hhasv]
  dsimp only
  rw [hfilnil]
  unfold maxEdges
  dsimp only
  rw [hdel1]
  rfl

/-- C10 amended: on any well-formed graph whose stored edges leave room
under the edge limit (and vertices under the vertex limit), `clustering`
of a vertex with exactly one incident edge (one distinct neighbor) returns
`NaN`, and `averageClustering()` of the whole graph returns `NaN` as well;
without the edge-limit headroom the scratch ego network can instead throw
`EdgeLimitExceeded` (see the counterexample). -/
theorem clustering_single_neighbor_nan (g : Network) (v : BaseId)
    (e0 : BaseId × Edge)
    (hid : ∀ p ∈ g.vertices, p.2.id = p.1)
    (hself : ∀ p ∈ g.edges, p.2.from' ≠ p.2.to')
    (hends : ∀ p ∈ g.edges, p.2.from' ∈ mapKeys g.vertices ∧
      p.2.to' ∈ mapKeys g.vertices)
    (hel : g.edges.length < g.edge_limit)
    (hvl : g.vertices.length < g.vertex_limit)
    (hone : g.edges.filter (fun p => p.2.from' == v || p.2.to' == v) = [e0]) :
    clustering g v = .ok .nan ∧ averageClustering g = .ok .nan := by
  have hcl := clustering_single_nan g v e0 hself hends hel hvl hone
  refine ⟨hcl, ?_⟩
  have he0fil : e0 ∈ g.edges.filter
      (fun p => p.2.from' == v || p.2.to' == v) := by
    rw [hone]
    exact List.mem_cons_self _ _
  have he0g : e0 ∈ g.edges := (List.mem_filter.1 he0fil).1
  have he0inc : (e0.2.from' == v || e0.2.to' == v) = true :=
    (List.mem_filter.1 he0fil).2
  have hf0t0 : e0.2.from' ≠ e0.2.to' := hself e0 he0g
  have hsub2 : [e0.2.from', e0.2.to'] ⊆ mapKeys g.vertices := by
    intro a ha
    rcases List.mem_cons.1 ha with rfl | ha'
    · exact (hends e0 he0g).1
    · rw [List.mem_singleton.1 ha']
      exact (hends e0 he0g).2
  have h2le : 2 ≤ g.vertices.length := by
    have hsp := (List.subperm_of_subset (by simp [hf0t0]) hsub2).length_le
    have hlm : (mapKeys g.vertices).length = g.vertices.length :=
      List.length_map _ _
    rw [hlm] at hsp
    simpa using hsp
  have hvkeys : v ∈ mapKeys g.vertices := by
    rcases (Bool.or_eq_true _ _).mp he0inc with hf | ht
    · exact (beq_iff_eq.1 hf) ▸ (hends e0 he0g).1
    · exact (beq_iff_eq.1 ht) ▸ (hends e0 he0g).2
  obtain ⟨pv, hpv, hpvk⟩ := List.mem_map.1 hvkeys
  have hw0 : pv.2 ∈ vertex_list g := List.mem_map_of_mem _ hpv
  have hw0id : pv.2.id = v := by rw [hid pv hpv, hpvk]
  obtain ⟨cs, hcs, hmem⟩ := clusterVals_run g (vertex_list g)
    (fun w _ => clustering_ok g w.id hself hends hel hvl)
  have hnan : JSNum.nan ∈ cs := by
    apply hmem pv.2 hw0 .nan
    rw [hw0id]
    exact hcl
  unfold averageClustering
  rw [if_neg (by omega)]
  rw [hcs]
  dsimp only
  cases cs with
  | nil => exact absurd hnan (List.not_mem_nil _)
  | cons c rest =>
    have hsum : rest.foldl jsAdd c = .nan := by
      rcases List.mem_cons.1 hnan with h | h
      · exact foldl_jsAdd_nan rest c (Or.inl h.symm)
      · exact foldl_jsAdd_nan rest c (Or.inr h)
    dsimp only
    rw [hsum]
    rfl

theorem clustering_single_neighbor_nan_witness :
    (gC10w.edges.filter
        (fun p => p.2.from' == .str "a" || p.2.to' == .str "a")
      = [((.num 0 : BaseId), (⟨.str "a", .str "b", 1⟩ : Edge))]) ∧
    (clustering gC10w (.str "a") = .ok .nan ∧
     averageClustering gC10w = .ok .nan) :=
  ⟨by decide, clustering_single_neighbor_nan gC10w (.str "a")
    ((.num 0 : BaseId), (⟨.str "a", .str "b", 1⟩ : Edge))
    (by decide) (by decide) (by decide) (by decide) (by decide) (by decide)⟩

/-! ## C7 counterexample -/

/-- C7 counterexample: on the directed graph `a → b`, `dijkstra(a, b)`
returns successfully, but its `predecessors` array is `["a START"]` only –
vertex `b` (present in the graph) has no entry of either format, because
`getPredecesseurs` looks the connecting edge up with `edgeBetween(idx, pred)`
in the graph's own (directed) orientation, finds none for `b ← a`, and
silently skips the vertex. -/
theorem dijkstra_predecessors_missing_entry_counterexample :
    hasVertex gC7 (.str "b") = true ∧
    dijkC7 = .ok (stC7, resC7) ∧
    resC7.predecessors = ["a START"] ∧
    ∀ s ∈ resC7.predecessors,
      ¬(s = "b START" ∨ ∃ p w : String, s = "b <- " ++ p ++ " (" ++ w ++ ")") := by
  refine ⟨by decide, by rfl, by decide, ?_⟩
  have hres : resC7.predecessors = ["a START"] := by decide
  rw [hres]
  intro s hs
  rw [List.mem_singleton] at hs
  subst hs
  rintro (h | ⟨p, w, h⟩)
  · exact absurd h (by decide)
  · have hd := congrArg (fun s : String => s.data.head?) h
    simp only [String.data_append] at hd
    cases hd

/-! ## C10 counterexample -/

/-- C10 counterexample: a legitimately built graph (`edge_limit = 1`, one
edge `a–b`) whose vertex `a` has exactly one distinct neighbor, yet
`clustering(a)` does not return `NaN` – it throws `EdgeLimitExceeded`,
because the scratch ego network hits the `edge_limit` check when the second
pass re-attempts the edge; `averageClustering` then throws as well. -/
theorem clustering_throws_at_edge_limit_counterexample :
    (addEdge (mkNetwork { edge_limit := some 1 })
      { from' := .str "a", to' := .str "b" }).2 = .ok true ∧
    (neighbors gC10 (.str "a")).dedup = [.str "b"] ∧
    clustering gC10 (.str "a") = .error .EDGE_LIMIT ∧
    averageClustering gC10 = .error .EDGE_LIMIT := by decide

/-! ## C2: cross-checks on concrete graphs

No general equivalence proof was obtained; the following validate the two
enumerations against each other on the spec's Scenario 4 square and on `K₄`
(three 4-cycles). -/
theorem quadruplets_crosscheck_square :
    (quadruplets gSquare).toOption.map List.length = some 1 ∧
    (quadrupletsEdgePairing gSquare).toOption.map List.length = some 1 := by
  decide

theorem quadruplets_crosscheck_K4 :
    (quadruplets gK4).toOption.map List.length = some 3 ∧
    (quadrupletsEdgePairing gK4).toOption.map List.length = some 3 := by
  decide

end NeTS
